import Mathlib

/-!
# Verification of the fxhoucachemanager cache-resolution logic

A shallow embedding of the cache-management code of `fxhoucachemanager`
(`fxmodel.py`, `fxview.py`, `fxsettings.py`) together with theorems about
the claims of its specification.

Modelling conventions:

* A `pathlib.Path` is modelled by its list of components (`List String`);
  `Path.as_posix()` / `str(Path)` is `pathStr` (components joined by `/`).
* The on-disk tree seen by `os.scandir` is the inductive type `FSEntry`;
  the root directory is a `List FSEntry`.  A symlink whose target is a
  directory is its own constructor, because `entry.is_dir(follow_symlinks=
  False)` is `False` for it; symlink targets themselves are not modelled.
* A compiled `re` pattern is the structure `PyRegex`: `matchAt suffix`
  is the engine attempting a match at a position (returning the length of
  the match it produces), and `fullMatch` is the declarative acceptance
  predicate.  The two coherence fields state that the engine finds a match
  at a position iff some prefix of the remaining text is accepted, which
  holds for self-contained patterns (no `^` anchor and no lookbehind,
  which are position-dependent).
* Python exceptions (`IndexError` from `parents[1]`, `FileNotFoundError`
  from `os.scandir`, `ValueError` from `max([])`, `StopIteration` from
  `next`, `ZeroDivisionError`, `TypeError` from ordering `None` against
  `str`, `configparser.NoOptionError`/`NoSectionError`) are modelled by
  `Except PyErr`.
* Python `dict`s are association lists preserving insertion order:
  assignment to an existing key replaces the value in place, assignment to
  a fresh key appends (`dictSet`); `del`/`pop` removes the key.
* Python `sorted` is modelled by a stable insertion sort (`pysorted`).
* Python `set` literals are modelled by `List.dedup` of the enumeration
  order; the actual iteration order of a CPython set is unspecified, and
  no theorem below depends on the order chosen.
-/

inductive PyErr where
  | indexError
  | fileNotFound
  | valueError
  | stopIteration
  | zeroDivision
  | typeError
  | noOptionError
deriving DecidableEq

/-- `Path.as_posix()` / `str(Path)` on a POSIX host: components joined by
slashes. -/
def pathStr (p : List String) : String :=
  String.intercalate "/" p

/-- `Path.name`: the final component (empty for the root / the empty
path, as in `pathlib`). -/
def pathName (p : List String) : String :=
  (p.getLast?).getD ""

/-- `Path.parent.name`. -/
def parentName (p : List String) : String :=
  pathName p.dropLast

/-- `str.split('.')` at character level. -/
def splitOnDot : List Char → List (List Char)
  | [] => [[]]
  | c :: cs =>
    let r := splitOnDot cs
    if c = '.' then [] :: r
    else
      match r with
      | [] => [[c]]
      | h :: t => (c :: h) :: t

/-- `"".join(Path.suffixes)`, following the `pathlib` rule: a name ending
in a dot has no suffixes, leading dots do not start a suffix. -/
def suffixesJoined (name : String) : String :=
  let cs := name.toList
  if cs.getLast? = some '.' then ""
  else
    match splitOnDot (cs.dropWhile (fun c => c = '.')) with
    | [] => ""
    | _ :: rest => String.mk (rest.foldl (fun acc s => acc ++ '.' :: s) [])

/-- Lexicographic comparison of code-point sequences: Python `str <`,
which coincides with Lean's `String <`.  Defined recursively so that the
kernel can evaluate it on concrete strings. -/
def charListLt : List Char → List Char → Bool
  | [], [] => false
  | [], _ :: _ => true
  | _ :: _, [] => false
  | a :: as, b :: bs =>
    if a < b then true
    else if b < a then false
    else charListLt as bs

/-- Python `a < b` on strings. -/
def strLtB (a b : String) : Bool :=
  charListLt a.toList b.toList

/-- Python `a <= b` on strings (total order: not `b < a`). -/
def strLeB (a b : String) : Bool :=
  !strLtB b a

/-- A compiled `re` pattern, abstracted to what the code uses of it.
`matchAt cs` models the engine attempting a match at the start of the
remaining text `cs`, returning the length of the match it settles on;
`fullMatch s` is the declarative predicate of `s` being an exact match of
the pattern.  The coherence fields hold for patterns whose behaviour at a
position depends only on the text from that position on. -/
structure PyRegex where
  matchAt : List Char → Option Nat
  fullMatch : List Char → Bool
  matchAt_isSome : ∀ cs n, matchAt cs = some n →
    n ≤ cs.length ∧ fullMatch (cs.take n) = true
  matchAt_none : ∀ cs, matchAt cs = none →
    ∀ n, n ≤ cs.length → fullMatch (cs.take n) = false

/-- `pattern.search(s)`: scan positions left to right, return the match
found at the first position where the engine matches. -/
def pysearch (p : PyRegex) : List Char → Option (List Char)
  | [] =>
    match p.matchAt [] with
    | some n => some (List.take n [])
    | none => none
  | c :: cs =>
    match p.matchAt (c :: cs) with
    | some n => some (List.take n (c :: cs))
    | none => pysearch p cs

/-- `bool(pattern.match(s))`: does the engine match at position 0. -/
def pymatchB (p : PyRegex) (s : String) : Bool :=
  (p.matchAt s.toList).isSome

/-- `FXGatherCacheDataObject._extract_version` (fxmodel.py:159): search
the POSIX form of the path for the version pattern, return the matched
text, or the empty string when there is no match. -/
def extract_version (p : PyRegex) (path : List String) : String :=
  match pysearch p (pathStr path).toList with
  | some m => String.mk m
  | none => ""

/-- One entry of a directory as seen by `os.scandir`.  `symlinkDir` is a
symbolic link whose target is a directory: `entry.is_dir(follow_symlinks=
False)` is `False` for it, so `scan_directory` yields it like a file. -/
inductive FSEntry where
  | file (name : String)
  | dir (name : String) (children : List FSEntry)
  | symlinkDir (name : String)

def FSEntry.name : FSEntry → String
  | .file n => n
  | .dir n _ => n
  | .symlinkDir n => n

mutual

/-- `scan_directory` (fxmodel.py:33) on a single `os.scandir` entry:
recurse into real directories, yield everything else. -/
def scanEntry (pre : List String) : FSEntry → List (List String)
  | .file n => [pre ++ [n]]
  | .symlinkDir n => [pre ++ [n]]
  | .dir n children => scanList (pre ++ [n]) children

/-- `scan_directory` (fxmodel.py:33) over the entries of a directory whose
own path is `pre`, in `os.scandir` order. -/
def scanList (pre : List String) : List FSEntry → List (List String)
  | [] => []
  | e :: rest => scanEntry pre e ++ scanList pre rest

end

mutual

/-- Depth of one entry (0 for non-directories). -/
def fsDepth : FSEntry → Nat
  | .file _ => 0
  | .symlinkDir _ => 0
  | .dir _ children => fsDepthList children + 1

/-- Depth of a directory listing. -/
def fsDepthList : List FSEntry → Nat
  | [] => 0
  | e :: rest => max (fsDepth e) (fsDepthList rest)

end

/-- The recursion of `scan_directory` with an explicit recursion budget
spent on every descent into a subdirectory; `none` means the budget ran
out.  Used to state that the recursion terminates on finite trees. -/
def scanFuel : Nat → List String → List FSEntry → Option (List (List String))
  | 0, _, _ => none
  | _ + 1, _, [] => some []
  | fuel + 1, pre, .file n :: rest =>
    (scanFuel (fuel + 1) pre rest).map (fun r => (pre ++ [n]) :: r)
  | fuel + 1, pre, .symlinkDir n :: rest =>
    (scanFuel (fuel + 1) pre rest).map (fun r => (pre ++ [n]) :: r)
  | fuel + 1, pre, .dir n children :: rest =>
    match scanFuel fuel (pre ++ [n]) children with
    | none => none
    | some inner =>
      match scanFuel (fuel + 1) pre rest with
      | none => none
      | some r => some (inner ++ r)
termination_by fuel _ es => (fuel, es.length)

/-- The path `[n₁, …, nₖ]` leads from the given listing, through real
directories only, to a non-directory entry (a file, or a symlink to a
directory, which `scan_directory` treats like a file). -/
inductive IsLeafPath : List FSEntry → List String → Prop where
  | file {es : List FSEntry} {n : String} :
      FSEntry.file n ∈ es → IsLeafPath es [n]
  | symlinkDir {es : List FSEntry} {n : String} :
      FSEntry.symlinkDir n ∈ es → IsLeafPath es [n]
  | dir {es : List FSEntry} {n : String} {children : List FSEntry}
      {rest : List String} :
      FSEntry.dir n children ∈ es → IsLeafPath children rest →
      IsLeafPath es (n :: rest)

/-- First entry of a listing with the given name (directory entries have
unique names on a real file system). -/
def findEntry (es : List FSEntry) (n : String) : Option FSEntry :=
  es.find? (fun e => e.name = n)

/-- Resolve a path from the root listing to the entry it denotes,
traversing real directories only (symlink targets are not modelled). -/
def resolvePath : List FSEntry → List String → Option FSEntry
  | _, [] => none
  | es, [n] => findEntry es n
  | es, n :: rest =>
    match findEntry es n with
    | some (.dir _ children) => resolvePath children rest
    | _ => none

/-- `Path.exists()`. -/
def pathExists (es : List FSEntry) (p : List String) : Bool :=
  (resolvePath es p).isSome

/-- The path denotes a regular file. -/
def isFile (es : List FSEntry) (p : List String) : Bool :=
  match resolvePath es p with
  | some (.file _) => true
  | _ => false

/-- Resolve a path to the listing of the directory it denotes (the root
for the empty path). -/
def resolveDir : List FSEntry → List String → Option (List FSEntry)
  | es, [] => some es
  | es, n :: rest =>
    match findEntry es n with
    | some (.dir _ children) => resolveDir children rest
    | _ => none

/-- Python `sorted`'s insertion step: place `a` before the first element
it is `le` to.  With a total `le` this is the standard stable insertion. -/
def pyInsert {α : Type} (le : α → α → Bool) (a : α) : List α → List α
  | [] => [a]
  | b :: t => if le a b then a :: b :: t else b :: pyInsert le a t

/-- Python `sorted(l, key=...)`: a stable sort. -/
def pysorted {α : Type} (le : α → α → Bool) (l : List α) : List α :=
  l.foldr (pyInsert le) []

/-- Python `max` over a list of strings: keep the current value unless
the next element is strictly greater; `max([])` raises `ValueError`,
modelled by `none`. -/
def pymax : List String → Option String
  | [] => none
  | h :: t => some (t.foldl (fun cur v => if strLtB cur v then v else cur) h)

/-- Comparison of `item[1]` sort keys, used only where every key is
known to be a `str`: in `_build_cache_data` the values are literally
`self._extract_version(...)` results, and `sortByVersionDesc` guards its
call with an all-`some` check.  The `none` branches are therefore never
evaluated; Python would raise `TypeError` there (see
`sortByVersionDesc`). -/
def optLeB : Option String → Option String → Bool
  | some a, some b => strLeB a b
  | none, _ => true
  | some _, none => false

/-- `dict(sorted(d.items(), key=lambda item: item[1], reverse=True))` on
a dictionary whose values may be `None` (fxview.py:919): CPython's sort
first extracts all keys, then compares them; with fewer than two items
no comparison is performed, and with two or more every item is compared
at least once during run detection, so any `None` key raises
`TypeError` (`<` is not supported between `NoneType` and `str`, nor
between two `NoneType`s). -/
def sortByVersionDesc (l : List (List String × Option String)) :
    Except PyErr (List (List String × Option String)) :=
  match l with
  | [] => .ok []
  | [x] => .ok [x]
  | _ =>
    if l.all (fun pv => pv.2.isSome) then
      .ok (pysorted (fun a b => optLeB b.2 a.2) l)
    else
      .error .typeError

def strLe (a b : String) : Bool :=
  strLeB a b

/-- Python `dict` assignment `d[k] = v`: replace the value in place when
the key is present, append a new binding otherwise. -/
def dictSet {K V : Type} [DecidableEq K] (l : List (K × V)) (k : K) (v : V) :
    List (K × V) :=
  if l.any (fun kv => decide (kv.1 = k)) then
    l.map (fun kv => if kv.1 = k then (k, v) else kv)
  else
    l ++ [(k, v)]

/-- A `hou.Parm` as the code uses it, identified by the parameter it
stands for (`parmId` models object identity for `set` deduplication),
with the name of its owning node (`parm.node().name()`) and the
evaluated file path (`Path(parm.eval())`).  Entries of
`hou.fileReferences()` are modelled directly by their
`getReferencedParm()`, the only thing the code reads of them. -/
structure RefParm where
  parmId : Nat
  nodeName : String
  evalPath : List String
deriving DecidableEq

/-- The `FXCacheData.data` dictionary (fxmodel.py:89).  The node object
is modelled by its name; dictionary values that are `None` in Python
until `_build_cache_data` fills them are `Option`s. -/
structure CacheData where
  cache_node : String
  cache_parm : RefParm
  cache_name : String
  cache_extension : String
  used_cache_path : List (List String × Option String)
  unused_cache_paths : List (List String × Option String)
  latest_version : Option String
  current_version : Option String
  all_versions : List String
  is_current_latest : Bool
  valid_cache_file : Bool
  valid_cache_path : Bool
deriving DecidableEq

/-- `FXCacheData.__init__` (fxmodel.py:90). -/
def initCacheData (r : RefParm) (fs : List FSEntry) (path : List String) :
    CacheData :=
  { cache_node := r.nodeName
    cache_parm := r
    cache_name := pathName path
    cache_extension := suffixesJoined (pathName path)
    used_cache_path := [(path, (none : Option String))]
    unused_cache_paths := []
    latest_version := none
    current_version := none
    all_versions := []
    is_current_latest := false
    valid_cache_file := pathExists fs path
    valid_cache_path := false }

/-- `FXGatherCacheDataObject._build_cache_data` (fxmodel.py:265):
return the freshly initialised data when the used path does not exist or
its parent directory name does not match the version pattern; otherwise
scan two levels up, compute the unused paths as a set difference, the
sorted set of versions and its `max`, and sort the unused dictionary by
version, descending. -/
def build_cache_data (pat : PyRegex) (fs : List FSEntry) (r : RefParm)
    (path : List String) : Except PyErr CacheData :=
  let cd := initCacheData r fs path
  if pathExists fs path = false then .ok cd
  else if pymatchB pat (parentName path) = false then .ok cd
  else if path.length < 2 then .error .indexError
  else
    match resolveDir fs path.dropLast.dropLast with
    | none => .error .fileNotFound
    | some children =>
      let all_caches := scanList path.dropLast.dropLast children
      let unused_cache_paths :=
        (all_caches.dedup).filter (fun q => decide (q ≠ path))
      let all_versions :=
        pysorted strLe ((all_caches.map (fun q => extract_version pat q)).dedup)
      match pymax all_versions with
      | none => .error .valueError
      | some latest_version =>
        let current_version := extract_version pat path
        let unused_cache_versions :=
          unused_cache_paths.map (fun q => (q, some (extract_version pat q)))
        let sorted_unused :=
          pysorted (fun a b => optLeB b.2 a.2) unused_cache_versions
        .ok { cd with
          used_cache_path := [(path, some current_version)]
          unused_cache_paths := sorted_unused
          latest_version := some latest_version
          current_version := some current_version
          all_versions := all_versions
          is_current_latest := decide (latest_version = current_version)
          valid_cache_path := true }

/-- `FXGatherCacheDataObject._filter_file_references` (fxmodel.py:226):
keep the entries that are `hou.Parm`s whose referenced parm evaluates to
a path inside the cache root, deduplicate them as a set, and sort by the
string form of the path.  The iteration order of the Python set is
unspecified; it is modelled by first-enumeration order, and no theorem
depends on the choice. -/
def filter_file_references (root : List String)
    (refs : List (Option RefParm × String)) : List (RefParm × List String) :=
  let kept := refs.filterMap (fun e =>
    match e.1 with
    | some r =>
      if root.isPrefixOf r.evalPath then some (r, r.evalPath) else none
    | none => none)
  pysorted (fun a b => strLe (pathStr a.2) (pathStr b.2)) kept.dedup

/-- The loop of `FXGatherCacheDataObject.run` (fxmodel.py:191): build the
cache data of each filtered reference, store it under the owning node's
name, then emit a progress percentage.  `int((index + 1) / total * 100)`
is modelled by exact natural floor division (the claims do not concern
float rounding); when `total = 0` the division raises
`ZeroDivisionError`, which is only reachable when the loop body runs. -/
def runLoop (pat : PyRegex) (fs : List FSEntry) (total : Nat) :
    Nat → List Nat → List (String × CacheData) →
    List (RefParm × List String) →
    Except PyErr (List Nat × List (String × CacheData))
  | _, progAcc, caches, [] => .ok (progAcc.reverse, caches)
  | i, progAcc, caches, (r, pth) :: rest =>
    match build_cache_data pat fs r pth with
    | .error e => .error e
    | .ok cd =>
      let caches2 := dictSet caches r.nodeName cd
      if total = 0 then .error .zeroDivision
      else runLoop pat fs total (i + 1) ((i + 1) * 100 / total :: progAcc)
        caches2 rest

/-- `FXGatherCacheDataObject.run` (fxmodel.py:174): filter the scene's
file references, then process them, returning the emitted progress
values and the `caches` dictionary passed to `finished.emit`. -/
def run (pat : PyRegex) (fs : List FSEntry) (root : List String)
    (refs : List (Option RefParm × String)) :
    Except PyErr (List Nat × List (String × CacheData)) :=
  let filtered := filter_file_references root refs
  runLoop pat fs filtered.length 0 [] [] filtered

/-- `next(path for path, version in unused.items() if version ==
new_version)` (fxview.py:903), as the first matching key. -/
def findFirstWithVersion (v : String)
    (l : List (List String × Option String)) : Option (List String) :=
  (l.find? (fun pv => decide (pv.2 = some v))).map (fun pv => pv.1)

/-- `FXCacheManagerMainWindow._update_caches` (fxview.py:877), restricted
to its effect on the cache-data dictionary (the tree-widget and Houdini
parameter side effects are not modelled): move the previously used path
into the unused dictionary under the old current version, promote the
first unused path carrying `new_version` to the sole used path, update
`current_version` and `is_current_latest`, and re-sort the unused
dictionary by version, descending. -/
def update_caches (d : CacheData) (new_version : String) :
    Except PyErr CacheData :=
  let current_version := d.current_version
  let is_current_latest := decide (d.latest_version = some new_version)
  match d.used_cache_path with
  | [] => .error .stopIteration
  | (old_used, _) :: _ =>
    match findFirstWithVersion new_version d.unused_cache_paths with
    | none => .error .stopIteration
    | some new_used =>
      let unused1 :=
        d.unused_cache_paths.eraseP (fun pv => decide (pv.1 = new_used))
      let unused2 := dictSet unused1 old_used current_version
      match sortByVersionDesc unused2 with
      | .error e => .error e
      | .ok unused3 =>
        .ok { d with
          used_cache_path := [(new_used, some new_version)]
          unused_cache_paths := unused3
          current_version := some new_version
          is_current_latest := is_current_latest }

/-- The comparison `version < current_version` of fxview.py:1256; in
Python comparing `None` with a `str` raises `TypeError`. -/
def optLtE : Option String → Option String → Except PyErr Bool
  | some a, some b => .ok (strLtB a b)
  | _, _ => .error .typeError

/-- The list comprehension of fxview.py:1252: the unused paths whose
version is strictly below the current one, left to right. -/
def pathsToDelete (cur : Option String) :
    List (List String × Option String) → Except PyErr (List (List String))
  | [] => .ok []
  | (p, v) :: t =>
    match optLtE v cur with
    | .error e => .error e
    | .ok b =>
      match pathsToDelete cur t with
      | .error e => .error e
      | .ok rest => .ok (if b then p :: rest else rest)

/-- `FXCacheManagerMainWindow._delete_unused_caches` (fxview.py:1229),
restricted to its effect on the cache data and the files it unlinks
(first component of the result): compute the paths strictly below the
current version; if there are none, or the user cancels the confirmation
dialog (`confirm = false`), delete nothing; otherwise unlink each such
path and drop it from the unused dictionary. -/
def delete_unused_caches (confirm : Bool) (d : CacheData) :
    Except PyErr (List (List String) × CacheData) :=
  match pathsToDelete d.current_version d.unused_cache_paths with
  | .error e => .error e
  | .ok [] => .ok ([], d)
  | .ok paths =>
    if confirm = false then .ok ([], d)
    else
      let unused2 :=
        paths.foldl (fun acc p => acc.eraseP (fun pv => decide (pv.1 = p)))
          d.unused_cache_paths
      .ok (paths, { d with unused_cache_paths := unused2 })

/-- A parsed INI file: sections mapping option names to values. -/
def INIData : Type :=
  List (String × List (String × String))

/-- `ConfigParser.get(section, option)`, `none` modelling the
`NoSectionError`/`NoOptionError` it raises when absent. -/
def iniGet (ini : INIData) (sec opt : String) : Option String :=
  (List.lookup sec ini).bind (fun opts => List.lookup opt opts)

/-- `fxsettings.load_config` (fxsettings.py:28): fall back to the bundled
default config path when the given path does not exist, parse the chosen
file (`ConfigParser.read` silently skips a missing file, leaving an empty
configuration), and return the three settings, expanding environment
variables in `cache_root_path`.  The host file system and `os.path.
expandvars` are parameters. -/
def load_config (fsExists : List String → Bool)
    (readConf : List String → Option INIData)
    (expandvars : String → String)
    (userPath defaultPath : List String) :
    Except PyErr (List (String × String)) :=
  let config_path := if fsExists userPath then userPath else defaultPath
  let config := (readConf config_path).getD []
  match iniGet config "Settings" "version_pattern" with
  | none => .error .noOptionError
  | some vp =>
    match iniGet config "Settings" "houdini_variable" with
    | none => .error .noOptionError
    | some hv =>
      match iniGet config "Settings" "cache_root_path" with
      | none => .error .noOptionError
      | some crp =>
        .ok [("version_pattern", vp), ("houdini_variable", hv),
             ("cache_root_path", expandvars crp)]

/-- Key lookup in an association list (Python `d[k]` for reading). -/
def lookupKey {K V : Type} [DecidableEq K] (l : List (K × V)) (k : K) :
    Option V :=
  (l.find? (fun kv => decide (kv.1 = k))).map (fun kv => kv.2)

/-- Matching a literal string pattern at the start of the text. -/
def litMatchAt (lit : String) (cs : List Char) : Option Nat :=
  if lit.toList.isPrefixOf cs then some lit.toList.length else none

/-- Exact match of a literal string pattern. -/
def litFullMatch (lit : String) (cs : List Char) : Bool :=
  decide (cs = lit.toList)

theorem litMatchAt_isSome (lit : String) : ∀ cs n, litMatchAt lit cs = some n →
    n ≤ cs.length ∧ litFullMatch lit (cs.take n) = true := by
  intro cs n h
  unfold litMatchAt at h
  by_cases hp : lit.toList.isPrefixOf cs = true
  · rw [if_pos hp] at h
    have hpre : lit.toList <+: cs := List.isPrefixOf_iff_prefix.mp hp
    have hn : n = lit.toList.length := (Option.some.inj h).symm
    subst hn
    refine ⟨hpre.length_le, ?_⟩
    have heq : lit.toList = cs.take lit.toList.length :=
      List.prefix_iff_eq_take.mp hpre
    unfold litFullMatch
    rw [← heq]
    simp
  · rw [if_neg hp] at h
    exact absurd h (by simp)

theorem litMatchAt_none (lit : String) : ∀ cs, litMatchAt lit cs = none →
    ∀ n, n ≤ cs.length → litFullMatch lit (cs.take n) = false := by
  intro cs h n hn
  unfold litMatchAt at h
  by_cases hp : lit.toList.isPrefixOf cs = true
  · rw [if_pos hp] at h
    exact absurd h (by simp)
  · unfold litFullMatch
    simp only [decide_eq_false_iff_not]
    intro heq
    apply hp
    apply List.isPrefixOf_iff_prefix.mpr
    apply List.prefix_iff_eq_take.mpr
    have hlen : lit.toList.length ≤ n := by
      have hl := congrArg List.length heq
      rw [List.length_take] at hl
      omega
    have hstep : cs.take lit.toList.length = (cs.take n).take lit.toList.length := by
      rw [List.take_take, min_eq_left hlen]
    rw [hstep, heq, List.take_length]

/-- A concrete `PyRegex`: the compiled form of a regex that is a literal
string (no metacharacters), e.g. `re.compile("v001")`. -/
def litPat (lit : String) : PyRegex where
  matchAt := litMatchAt lit
  fullMatch := litFullMatch lit
  matchAt_isSome := litMatchAt_isSome lit
  matchAt_none := litMatchAt_none lit

theorem pyInsert_perm {α : Type} (le : α → α → Bool) (a : α) (l : List α) :
    (pyInsert le a l).Perm (a :: l) := by
  induction l with
  | nil => simp [pyInsert]
  | cons b t ih =>
    simp only [pyInsert]
    by_cases h : le a b = true
    · rw [if_pos h]
    · rw [if_neg h]
      exact (ih.cons b).trans (List.Perm.swap a b t)

theorem pysorted_perm {α : Type} (le : α → α → Bool) (l : List α) :
    (pysorted le l).Perm l := by
  induction l with
  | nil => simp [pysorted]
  | cons a t ih =>
    have : pysorted le (a :: t) = pyInsert le a (pysorted le t) := rfl
    rw [this]
    exact (pyInsert_perm le a (pysorted le t)).trans (ih.cons a)

theorem mem_pysorted {α : Type} (le : α → α → Bool) (l : List α) (a : α) :
    a ∈ pysorted le l ↔ a ∈ l :=
  (pysorted_perm le l).mem_iff

theorem charListLt_iff : ∀ (as bs : List Char), charListLt as bs = true ↔ as.lt bs
  | [], [] => by
    constructor
    · intro h; simp [charListLt] at h
    · intro h; cases h
  | [], b :: bs => by
    constructor
    · intro _; exact .nil b bs
    · intro _; rfl
  | a :: as, [] => by
    constructor
    · intro h; simp [charListLt] at h
    · intro h; cases h
  | a :: as, b :: bs => by
    simp only [charListLt]
    by_cases hab : a < b
    · simp only [if_pos hab]
      exact iff_of_true trivial (.head as bs hab)
    · simp only [if_neg hab]
      by_cases hba : b < a
      · simp only [if_pos hba]
        constructor
        · intro h; simp at h
        · intro h
          cases h with
          | head _ _ h1 => exact absurd h1 hab
          | tail h1 h2 h3 => exact absurd hba h2
      · simp only [if_neg hba]
        rw [charListLt_iff as bs]
        constructor
        · intro h; exact .tail hab hba h
        · intro h
          cases h with
          | head _ _ h1 => exact absurd h1 hab
          | tail _ _ h3 => exact h3

theorem strLtB_iff (a b : String) : strLtB a b = true ↔ a < b := by
  rw [String.lt_iff_toList_lt]
  rw [show (a.toList < b.toList ↔
    List.Lex (fun x y : Char => x < y) a.toList b.toList) from Iff.rfl]
  rw [← List.lt_iff_lex_lt]
  exact charListLt_iff a.toList b.toList

theorem strLeB_iff (a b : String) : strLeB a b = true ↔ a ≤ b := by
  unfold strLeB
  rw [Bool.not_eq_true']
  constructor
  · intro h
    by_contra hab
    have hba : b < a := not_le.mp hab
    rw [← strLtB_iff] at hba
    rw [h] at hba
    exact absurd hba (by simp)
  · intro h
    rw [← Bool.not_eq_true, strLtB_iff]
    exact not_lt.mpr h

theorem pymax_step_eq (cur v : String) :
    (if strLtB cur v then v else cur) = max cur v := by
  by_cases h : strLtB cur v = true
  · rw [if_pos h, max_eq_right (le_of_lt ((strLtB_iff cur v).mp h))]
  · rw [if_neg h]
    have h2 : ¬ cur < v := fun hlt => h ((strLtB_iff cur v).mpr hlt)
    exact (max_eq_left (le_of_not_lt h2)).symm

theorem pymax_foldl_eq (t : List String) (h : String) :
    t.foldl (fun cur v => if strLtB cur v then v else cur) h = t.foldl max h := by
  induction t generalizing h with
  | nil => rfl
  | cons a t ih =>
    show t.foldl (fun cur v => if strLtB cur v then v else cur)
      (if strLtB h a then a else h) = List.foldl max (max h a) t
    rw [pymax_step_eq, ih]

theorem foldl_max_mem (t : List String) (h : String) :
    t.foldl max h ∈ h :: t := by
  induction t generalizing h with
  | nil => simp
  | cons a t ih =>
    show List.foldl max (max h a) t ∈ h :: a :: t
    rcases List.mem_cons.mp (ih (max h a)) with h1 | h1
    · rw [h1]
      rcases max_choice h a with h2 | h2 <;> rw [h2] <;> simp
    · simp [h1]

theorem le_foldl_max (t : List String) (h : String) :
    ∀ v ∈ h :: t, v ≤ t.foldl max h := by
  induction t generalizing h with
  | nil => intro v hv; simp at hv; simp [hv]
  | cons a t ih =>
    intro v hv
    rcases List.mem_cons.mp hv with h1 | h1
    · subst h1
      exact le_trans (le_max_left v a) (ih (max v a) (max v a) (by simp))
    · rcases List.mem_cons.mp h1 with h2 | h2
      · subst h2
        exact le_trans (le_max_right h v) (ih (max h v) (max h v) (by simp))
      · exact ih (max h a) v (by simp [h2])

theorem pymax_mem {l : List String} {m : String} (h : pymax l = some m) :
    m ∈ l := by
  cases l with
  | nil => simp [pymax] at h
  | cons a t =>
    simp only [pymax, pymax_foldl_eq, Option.some.injEq] at h
    rw [← h]
    exact foldl_max_mem t a

theorem le_pymax {l : List String} {m : String} (h : pymax l = some m) :
    ∀ v ∈ l, v ≤ m := by
  cases l with
  | nil => simp [pymax] at h
  | cons a t =>
    simp only [pymax, pymax_foldl_eq, Option.some.injEq] at h
    intro v hv
    rw [← h]
    exact le_foldl_max t a v hv

theorem pymax_isSome {l : List String} (h : l ≠ []) :
    ∃ m, pymax l = some m := by
  cases l with
  | nil => exact absurd rfl h
  | cons a t => exact ⟨_, rfl⟩

theorem pysearch_none_matchAt {p : PyRegex} : ∀ {cs : List Char},
    pysearch p cs = none → ∀ i, p.matchAt (cs.drop i) = none := by
  intro cs
  induction cs with
  | nil =>
    intro h i
    rw [List.drop_nil]
    unfold pysearch at h
    cases hm : p.matchAt [] with
    | some n => simp [hm] at h
    | none => rfl
  | cons c cs ih =>
    intro h i
    unfold pysearch at h
    cases hm : p.matchAt (c :: cs) with
    | some n => simp [hm] at h
    | none =>
      simp only [hm] at h
      cases i with
      | zero => simpa using hm
      | succ j => simpa using ih h j

theorem pysearch_some_spec {p : PyRegex} : ∀ {cs : List Char} {m : List Char},
    pysearch p cs = some m →
    ∃ i n, p.matchAt (cs.drop i) = some n ∧ m = (cs.drop i).take n ∧
      ∀ j, j < i → p.matchAt (cs.drop j) = none := by
  intro cs
  induction cs with
  | nil =>
    intro m h
    unfold pysearch at h
    cases hm : p.matchAt [] with
    | some n =>
      simp only [hm] at h
      exact ⟨0, n, by simpa using hm, by simpa using h.symm, fun j hj => by omega⟩
    | none => simp [hm] at h
  | cons c cs ih =>
    intro m h
    unfold pysearch at h
    cases hm : p.matchAt (c :: cs) with
    | some n =>
      simp only [hm, Option.some.injEq] at h
      exact ⟨0, n, by simpa using hm, by simpa using h.symm, fun j hj => by omega⟩
    | none =>
      simp only [hm] at h
      rcases ih h with ⟨i, n, h1, h2, h3⟩
      refine ⟨i + 1, n, by simpa using h1, by simpa using h2, ?_⟩
      intro j hj
      cases j with
      | zero => simpa using hm
      | succ j2 => simpa using h3 j2 (by omega)

theorem IsLeafPath.weaken {e : FSEntry} {rest : List FSEntry} {q : List String}
    (h : IsLeafPath rest q) : IsLeafPath (e :: rest) q := by
  cases h with
  | file hm => exact .file (List.mem_cons_of_mem _ hm)
  | symlinkDir hm => exact .symlinkDir (List.mem_cons_of_mem _ hm)
  | dir hm hrest => exact .dir (List.mem_cons_of_mem _ hm) hrest

theorem mem_scanList_iff (es : List FSEntry) (pre p : List String) :
    p ∈ scanList pre es ↔ ∃ q, IsLeafPath es q ∧ p = pre ++ q :=
  match es with
  | [] => by
    constructor
    · intro h; simp [scanList] at h
    · rintro ⟨q, hq, _⟩; cases hq <;> simp_all
  | .file n :: rest => by
    have ihrest := mem_scanList_iff rest pre p
    constructor
    · intro h
      rcases List.mem_append.mp h with h1 | h1
      · have hp : p = pre ++ [n] := by simpa [scanEntry] using h1
        exact ⟨[n], .file (List.mem_cons_self _ _), hp⟩
      · rcases ihrest.mp h1 with ⟨q, hq, hp⟩
        exact ⟨q, hq.weaken, hp⟩
    · rintro ⟨q, hq, hp⟩
      cases hq with
      | file hm =>
        rcases List.mem_cons.mp hm with h1 | h1
        · cases h1
          exact List.mem_append.mpr (Or.inl (by simp [scanEntry, hp]))
        · exact List.mem_append.mpr (Or.inr (ihrest.mpr ⟨_, .file h1, hp⟩))
      | symlinkDir hm =>
        rcases List.mem_cons.mp hm with h1 | h1
        · cases h1
        · exact List.mem_append.mpr (Or.inr (ihrest.mpr ⟨_, .symlinkDir h1, hp⟩))
      | dir hm hq2 =>
        rcases List.mem_cons.mp hm with h1 | h1
        · cases h1
        · exact List.mem_append.mpr (Or.inr (ihrest.mpr ⟨_, .dir h1 hq2, hp⟩))
  | .symlinkDir n :: rest => by
    have ihrest := mem_scanList_iff rest pre p
    constructor
    · intro h
      rcases List.mem_append.mp h with h1 | h1
      · have hp : p = pre ++ [n] := by simpa [scanEntry] using h1
        exact ⟨[n], .symlinkDir (List.mem_cons_self _ _), hp⟩
      · rcases ihrest.mp h1 with ⟨q, hq, hp⟩
        exact ⟨q, hq.weaken, hp⟩
    · rintro ⟨q, hq, hp⟩
      cases hq with
      | file hm =>
        rcases List.mem_cons.mp hm with h1 | h1
        · cases h1
        · exact List.mem_append.mpr (Or.inr (ihrest.mpr ⟨_, .file h1, hp⟩))
      | symlinkDir hm =>
        rcases List.mem_cons.mp hm with h1 | h1
        · cases h1
          exact List.mem_append.mpr (Or.inl (by simp [scanEntry, hp]))
        · exact List.mem_append.mpr (Or.inr (ihrest.mpr ⟨_, .symlinkDir h1, hp⟩))
      | dir hm hq2 =>
        rcases List.mem_cons.mp hm with h1 | h1
        · cases h1
        · exact List.mem_append.mpr (Or.inr (ihrest.mpr ⟨_, .dir h1 hq2, hp⟩))
  | .dir n children :: rest => by
    have ihrest := mem_scanList_iff rest pre p
    have ihch := mem_scanList_iff children (pre ++ [n]) p
    constructor
    · intro h
      rcases List.mem_append.mp h with h1 | h1
      · rcases ihch.mp h1 with ⟨q, hq, hp⟩
        refine ⟨n :: q, .dir (List.mem_cons_self _ _) hq, ?_⟩
        rw [hp, List.append_assoc]
        rfl
      · rcases ihrest.mp h1 with ⟨q, hq, hp⟩
        exact ⟨q, hq.weaken, hp⟩
    · rintro ⟨q, hq, hp⟩
      cases hq with
      | file hm =>
        rcases List.mem_cons.mp hm with h1 | h1
        · cases h1
        · exact List.mem_append.mpr (Or.inr (ihrest.mpr ⟨_, .file h1, hp⟩))
      | symlinkDir hm =>
        rcases List.mem_cons.mp hm with h1 | h1
        · cases h1
        · exact List.mem_append.mpr (Or.inr (ihrest.mpr ⟨_, .symlinkDir h1, hp⟩))
      | dir hm hq2 =>
        rcases List.mem_cons.mp hm with h1 | h1
        · cases h1
          refine List.mem_append.mpr (Or.inl (ihch.mpr ⟨_, hq2, ?_⟩))
          rw [hp, List.append_assoc]
          rfl
        · exact List.mem_append.mpr (Or.inr (ihrest.mpr ⟨_, .dir h1 hq2, hp⟩))

theorem scanFuel_complete (fuel : Nat) : ∀ (es : List FSEntry) (pre : List String),
    fsDepthList es < fuel → scanFuel fuel pre es = some (scanList pre es) := by
  induction fuel with
  | zero => intro es pre h; exact absurd h (Nat.not_lt_zero _)
  | succ f ihf =>
    intro es
    induction es with
    | nil =>
      intro pre h
      simp [scanFuel, scanList]
    | cons e rest ihrest =>
      intro pre h
      have hrest : fsDepthList rest < f + 1 :=
        lt_of_le_of_lt (le_max_right _ _) h
      cases e with
      | file n =>
        simp only [scanFuel, ihrest pre hrest]
        rfl
      | symlinkDir n =>
        simp only [scanFuel, ihrest pre hrest]
        rfl
      | dir n children =>
        have hch : fsDepthList children < f := by
          have h1 : fsDepth (FSEntry.dir n children) ≤
              fsDepthList (FSEntry.dir n children :: rest) := le_max_left _ _
          have h2 : fsDepth (FSEntry.dir n children) = fsDepthList children + 1 := rfl
          omega
        simp only [scanFuel, ihf children (pre ++ [n]) hch, ihrest pre hrest]
        rfl

theorem findEntry_some {es : List FSEntry} {n : String} {e : FSEntry}
    (h : findEntry es n = some e) : e ∈ es ∧ e.name = n := by
  unfold findEntry at h
  refine ⟨List.mem_of_find?_eq_some h, ?_⟩
  have := List.find?_some h
  simpa using this

theorem scanEntry_subset_scanList {e : FSEntry} {es : List FSEntry}
    (hm : e ∈ es) {pre q : List String} (h : q ∈ scanEntry pre e) :
    q ∈ scanList pre es := by
  induction es with
  | nil => cases hm
  | cons e2 rest ih =>
    show q ∈ scanEntry pre e2 ++ scanList pre rest
    rcases List.mem_cons.mp hm with h1 | h1
    · subst h1
      exact List.mem_append.mpr (Or.inl h)
    · exact List.mem_append.mpr (Or.inr (ih h1))

theorem isFile_mem_scan : ∀ (p : List String) (es : List FSEntry)
    (pre : List String), isFile es p = true → (pre ++ p) ∈ scanList pre es
  | [], es, pre => by
    intro h
    simp [isFile, resolvePath] at h
  | [n], es, pre => by
    intro h
    unfold isFile at h
    have hres : resolvePath es [n] = findEntry es n := rfl
    rw [hres] at h
    cases hf : findEntry es n with
    | none => rw [hf] at h; simp at h
    | some e =>
      rw [hf] at h
      cases e with
      | file m =>
        rcases findEntry_some hf with ⟨hmem, hname⟩
        have hmn : m = n := hname
        subst hmn
        exact scanEntry_subset_scanList hmem (by simp [scanEntry])
      | dir m children => simp at h
      | symlinkDir m => simp at h
  | n :: n2 :: rest, es, pre => by
    intro h
    unfold isFile at h
    have hres : resolvePath es (n :: n2 :: rest) =
        (match findEntry es n with
         | some (.dir _ children) => resolvePath children (n2 :: rest)
         | _ => none) := rfl
    rw [hres] at h
    cases hf : findEntry es n with
    | none => rw [hf] at h; simp at h
    | some e =>
      rw [hf] at h
      cases e with
      | file m => simp at h
      | symlinkDir m => simp at h
      | dir m children =>
        rcases findEntry_some hf with ⟨hmem, hname⟩
        have hmn : m = n := hname
        subst m
        have h2 : isFile children (n2 :: rest) = true := by
          unfold isFile
          exact h
        have hin := isFile_mem_scan (n2 :: rest) children (pre ++ [n]) h2
        have hsub : (pre ++ [n]) ++ (n2 :: rest) ∈ scanEntry pre (.dir n children) :=
          hin
        have := scanEntry_subset_scanList hmem hsub
        rw [List.append_assoc] at this
        exact this

theorem resolveDir_of_isFile : ∀ (a b : List String)
    (es : List FSEntry), b ≠ [] → isFile es (a ++ b) = true →
    ∃ children, resolveDir es a = some children ∧ isFile children b = true
  | [], b, es => by
    intro hb h
    exact ⟨es, rfl, h⟩
  | n :: a2, b, es => by
    intro hb h
    have hne : a2 ++ b ≠ [] := by
      intro hx
      rcases List.append_eq_nil.mp hx with ⟨_, h2⟩
      exact hb h2
    cases hcons : a2 ++ b with
    | nil => exact absurd hcons hne
    | cons x xs =>
      have hx : (n :: a2) ++ b = n :: x :: xs := by simp [hcons]
      rw [hx] at h
      unfold isFile at h
      have hres : resolvePath es (n :: x :: xs) =
          (match findEntry es n with
           | some (.dir _ children) => resolvePath children (x :: xs)
           | _ => none) := rfl
      rw [hres] at h
      cases hf : findEntry es n with
      | none => rw [hf] at h; simp at h
      | some e =>
        rw [hf] at h
        cases e with
        | file m => simp at h
        | symlinkDir m => simp at h
        | dir m children =>
          have h2 : isFile children (a2 ++ b) = true := by
            rw [hcons]
            unfold isFile
            exact h
          rcases resolveDir_of_isFile a2 b children hb h2 with ⟨cs, hr, hfile⟩
          refine ⟨cs, ?_, hfile⟩
          show (match findEntry es n with
            | some (.dir _ children) => resolveDir children a2
            | _ => none) = some cs
          rw [hf]
          exact hr

theorem lookupKey_cons_eq {K V : Type} [DecidableEq K] {a : K × V}
    {t : List (K × V)} {k : K} (h : a.1 = k) :
    lookupKey (a :: t) k = some a.2 := by
  simp [lookupKey, List.find?_cons_of_pos, h]

theorem lookupKey_cons_ne {K V : Type} [DecidableEq K] {a : K × V}
    {t : List (K × V)} {k : K} (h : a.1 ≠ k) :
    lookupKey (a :: t) k = lookupKey t k := by
  simp [lookupKey, List.find?_cons_of_neg, h]

theorem lookupKey_mem {K V : Type} [DecidableEq K] {l : List (K × V)}
    {k : K} {v : V} (h : lookupKey l k = some v) : (k, v) ∈ l := by
  unfold lookupKey at h
  cases hf : l.find? (fun kv => decide (kv.1 = k)) with
  | none => rw [hf] at h; simp at h
  | some kv =>
    rw [hf] at h
    have hv : kv.2 = v := Option.some.inj h
    have hm := List.mem_of_find?_eq_some hf
    have hp := List.find?_some hf
    simp only [decide_eq_true_eq] at hp
    cases kv
    cases hv
    cases hp
    exact hm

theorem dictSet_cons_ne {K V : Type} [DecidableEq K] (a : K × V)
    (t : List (K × V)) (k : K) (v : V) (h : a.1 ≠ k) :
    dictSet (a :: t) k v = a :: dictSet t k v := by
  simp only [dictSet, List.any_cons, decide_eq_false h, Bool.false_or]
  by_cases ht : t.any (fun kv => decide (kv.1 = k)) = true
  · rw [if_pos ht, if_pos ht, List.map_cons, if_neg h]
  · rw [if_neg ht, if_neg ht, List.cons_append]

theorem lookupKey_dictSet_self {K V : Type} [DecidableEq K]
    (l : List (K × V)) (k : K) (v : V) :
    lookupKey (dictSet l k v) k = some v := by
  induction l with
  | nil => simp [dictSet, lookupKey]
  | cons a t ih =>
    by_cases h : a.1 = k
    · have hany : (a :: t).any (fun kv => decide (kv.1 = k)) = true := by
        simp [List.any_cons, h]
      unfold dictSet
      rw [if_pos hany, List.map_cons, if_pos h]
      exact lookupKey_cons_eq rfl
    · rw [dictSet_cons_ne a t k v h, lookupKey_cons_ne h]
      exact ih

theorem lookupKey_map_dictSetFn {K V : Type} [DecidableEq K]
    (t : List (K × V)) (k k2 : K) (v : V) (hk : k2 ≠ k) :
    lookupKey (t.map (fun kv => if kv.1 = k then (k, v) else kv)) k2 =
      lookupKey t k2 := by
  induction t with
  | nil => rfl
  | cons a t ih =>
    by_cases h : a.1 = k
    · rw [List.map_cons, if_pos h]
      rw [lookupKey_cons_ne (show ((k, v) : K × V).1 ≠ k2 from fun h2 => hk h2.symm)]
      rw [lookupKey_cons_ne (show a.1 ≠ k2 from by rw [h]; exact fun h2 => hk h2.symm)]
      exact ih
    · rw [List.map_cons, if_neg h]
      by_cases h2 : a.1 = k2
      · rw [lookupKey_cons_eq h2, lookupKey_cons_eq h2]
      · rw [lookupKey_cons_ne h2, lookupKey_cons_ne h2]
        exact ih

theorem lookupKey_append_single {K V : Type} [DecidableEq K]
    (l : List (K × V)) (k k2 : K) (v : V) (hk : k2 ≠ k) :
    lookupKey (l ++ [(k, v)]) k2 = lookupKey l k2 := by
  induction l with
  | nil =>
    rw [List.nil_append,
      lookupKey_cons_ne (show ((k, v) : K × V).1 ≠ k2 from fun h2 => hk h2.symm)]
  | cons a t ih =>
    by_cases h2 : a.1 = k2
    · rw [List.cons_append, lookupKey_cons_eq h2, lookupKey_cons_eq h2]
    · rw [List.cons_append, lookupKey_cons_ne h2, lookupKey_cons_ne h2]
      exact ih

theorem lookupKey_dictSet_ne {K V : Type} [DecidableEq K]
    (l : List (K × V)) (k k2 : K) (v : V) (hk : k2 ≠ k) :
    lookupKey (dictSet l k v) k2 = lookupKey l k2 := by
  unfold dictSet
  by_cases h : l.any (fun kv => decide (kv.1 = k)) = true
  · rw [if_pos h]
    exact lookupKey_map_dictSetFn l k k2 v hk
  · rw [if_neg h]
    exact lookupKey_append_single l k k2 v hk

theorem keys_map_dictSetFn {K V : Type} [DecidableEq K]
    (l : List (K × V)) (k : K) (v : V) :
    (l.map (fun kv => if kv.1 = k then (k, v) else kv)).map Prod.fst =
      l.map Prod.fst := by
  induction l with
  | nil => rfl
  | cons a t ih =>
    by_cases h : a.1 = k
    · simp [List.map_cons, if_pos h, ih, h]
    · simp [List.map_cons, if_neg h, ih]

theorem mem_keys_dictSet {K V : Type} [DecidableEq K]
    (l : List (K × V)) (k : K) (v : V) (x : K) :
    x ∈ (dictSet l k v).map Prod.fst ↔ x ∈ l.map Prod.fst ∨ x = k := by
  unfold dictSet
  by_cases h : l.any (fun kv => decide (kv.1 = k)) = true
  · rw [if_pos h, keys_map_dictSetFn]
    constructor
    · exact Or.inl
    · rintro (h1 | rfl)
      · exact h1
      · rcases List.any_eq_true.mp h with ⟨kv, hkv, hp⟩
        have hk : kv.1 = x := of_decide_eq_true hp
        exact List.mem_map.mpr ⟨kv, hkv, hk⟩
  · rw [if_neg h, List.map_append]
    simp [List.mem_append]

theorem nodup_keys_dictSet {K V : Type} [DecidableEq K]
    {l : List (K × V)} (k : K) (v : V) (hl : (l.map Prod.fst).Nodup) :
    ((dictSet l k v).map Prod.fst).Nodup := by
  unfold dictSet
  by_cases h : l.any (fun kv => decide (kv.1 = k)) = true
  · rw [if_pos h, keys_map_dictSetFn]
    exact hl
  · rw [if_neg h, List.map_append]
    have hk : k ∉ l.map Prod.fst := by
      intro hmem
      rcases List.mem_map.mp hmem with ⟨kv, hkv, hfst⟩
      exact h (List.any_eq_true.mpr ⟨kv, hkv, by simp [hfst]⟩)
    simp [List.nodup_append, hl, hk]

theorem mem_dictSet_self {K V : Type} [DecidableEq K]
    (l : List (K × V)) (k : K) (v : V) : (k, v) ∈ dictSet l k v := by
  unfold dictSet
  by_cases h : l.any (fun kv => decide (kv.1 = k)) = true
  · rw [if_pos h]
    rcases List.any_eq_true.mp h with ⟨kv, hkv, hp⟩
    have hk : kv.1 = k := of_decide_eq_true hp
    exact List.mem_map.mpr ⟨kv, hkv, by simp [hk]⟩
  · rw [if_neg h]
    simp

theorem filter_key_eq_of_lookup {K V : Type} [DecidableEq K]
    {l : List (K × V)} (hl : (l.map Prod.fst).Nodup) {k : K} {v : V}
    (h : lookupKey l k = some v) :
    l.filter (fun kv => decide (kv.1 = k)) = [(k, v)] := by
  induction l with
  | nil => simp [lookupKey] at h
  | cons a t ih =>
    rw [List.map_cons, List.nodup_cons] at hl
    by_cases hk : a.1 = k
    · rw [lookupKey_cons_eq hk] at h
      have hav : a = (k, v) := by
        cases a
        cases h
        cases hk
        rfl
      rw [List.filter_cons_of_pos (by simp [hk])]
      have hnil : t.filter (fun kv => decide (kv.1 = k)) = [] := by
        apply List.filter_eq_nil_iff.mpr
        intro kv hkv
        simp only [decide_eq_true_eq]
        intro heq
        exact hl.1 (List.mem_map.mpr ⟨kv, hkv, by rw [heq, ← hk]⟩)
      rw [hnil, hav]
    · rw [lookupKey_cons_ne hk] at h
      rw [List.filter_cons_of_neg (by simp [hk])]
      exact ih hl.2 h

theorem keys_eraseP_key {K V : Type} [DecidableEq K]
    (l : List (K × V)) (k x : K) (hl : (l.map Prod.fst).Nodup) :
    x ∈ (l.eraseP (fun kv => decide (kv.1 = k))).map Prod.fst ↔
      x ∈ l.map Prod.fst ∧ x ≠ k := by
  induction l with
  | nil => simp
  | cons a t ih =>
    rw [List.map_cons, List.nodup_cons] at hl
    by_cases hk : a.1 = k
    · rw [List.eraseP_cons_of_pos (by simp [hk])]
      constructor
      · intro hx
        refine ⟨List.mem_cons.mpr (Or.inr hx), ?_⟩
        intro hxk
        exact hl.1 (by rw [hk, ← hxk]; exact hx)
      · rintro ⟨hx, hxk⟩
        rcases List.mem_cons.mp hx with h1 | h1
        · exact absurd (h1.trans hk) hxk
        · exact h1
    · rw [List.eraseP_cons_of_neg (by simp [hk])]
      simp only [List.map_cons, List.mem_cons]
      rw [ih hl.2]
      constructor
      · rintro (rfl | ⟨hx, hxk⟩)
        · exact ⟨Or.inl rfl, fun h2 => hk h2⟩
        · exact ⟨Or.inr hx, hxk⟩
      · rintro ⟨(rfl | hx), hxk⟩
        · exact Or.inl rfl
        · exact Or.inr ⟨hx, hxk⟩

theorem mem_keys_pysorted {K V : Type} (le : K × V → K × V → Bool)
    (l : List (K × V)) (x : K) :
    x ∈ (pysorted le l).map Prod.fst ↔ x ∈ l.map Prod.fst :=
  ((pysorted_perm le l).map Prod.fst).mem_iff

theorem any_key_iff {K V : Type} [DecidableEq K] (l : List (K × V)) (k : K) :
    l.any (fun kv => decide (kv.1 = k)) = true ↔ k ∈ l.map Prod.fst := by
  rw [List.any_eq_true]
  constructor
  · rintro ⟨kv, hkv, hp⟩
    exact List.mem_map.mpr ⟨kv, hkv, of_decide_eq_true hp⟩
  · intro h
    rcases List.mem_map.mp h with ⟨kv, hkv, hf⟩
    exact ⟨kv, hkv, by simp [hf]⟩

theorem length_dictSet_of_not_mem {K V : Type} [DecidableEq K]
    {l : List (K × V)} {k : K} (v : V) (h : k ∉ l.map Prod.fst) :
    (dictSet l k v).length = l.length + 1 := by
  unfold dictSet
  rw [if_neg (fun ha => h ((any_key_iff l k).mp ha))]
  simp

theorem runLoop_builds_ok {pat : PyRegex} {fs : List FSEntry} {total : Nat} :
    ∀ (l : List (RefParm × List String)) (i : Nat) (progAcc : List Nat)
    (caches : List (String × CacheData))
    {out : List Nat × List (String × CacheData)},
    runLoop pat fs total i progAcc caches l = .ok out →
    ∀ rp ∈ l, ∃ cd, build_cache_data pat fs rp.1 rp.2 = .ok cd := by
  intro l
  induction l with
  | nil =>
    intro i progAcc caches out h rp hm
    simp at hm
  | cons hd tl ih =>
    intro i progAcc caches out h rp hm
    obtain ⟨r0, p0⟩ := hd
    cases hb : build_cache_data pat fs r0 p0 with
    | error e =>
      simp only [runLoop, hb] at h
      exact Except.noConfusion h
    | ok cd =>
      simp only [runLoop, hb] at h
      by_cases ht : total = 0
      · rw [if_pos ht] at h
        exact Except.noConfusion h
      · rw [if_neg ht] at h
        rcases List.mem_cons.mp hm with rfl | hmem
        · exact ⟨cd, hb⟩
        · exact ih _ _ _ h rp hmem

theorem runLoop_lookup {pat : PyRegex} {fs : List FSEntry} {total : Nat} :
    ∀ (l : List (RefParm × List String)) (i : Nat) (progAcc : List Nat)
    (caches : List (String × CacheData)) {pl : List Nat}
    {cs : List (String × CacheData)},
    runLoop pat fs total i progAcc caches l = .ok (pl, cs) →
    ∀ nm : String,
      (l.filter (fun rp => decide (rp.1.nodeName = nm)) = [] →
        lookupKey cs nm = lookupKey caches nm) ∧
      (∀ r pth,
        (l.filter (fun rp => decide (rp.1.nodeName = nm))).getLast? = some (r, pth) →
        ∃ cd, build_cache_data pat fs r pth = .ok cd ∧ lookupKey cs nm = some cd) := by
  intro l
  induction l with
  | nil =>
    intro i progAcc caches pl cs h nm
    simp only [runLoop, Except.ok.injEq, Prod.mk.injEq] at h
    obtain ⟨hpl, hcs⟩ := h
    subst hcs
    constructor
    · intro _
      rfl
    · intro r pth hlast
      simp at hlast
  | cons hd tl ih =>
    intro i progAcc caches pl cs h nm
    obtain ⟨r0, p0⟩ := hd
    cases hb : build_cache_data pat fs r0 p0 with
    | error e =>
      simp only [runLoop, hb] at h
      exact Except.noConfusion h
    | ok cd =>
      simp only [runLoop, hb] at h
      by_cases ht : total = 0
      · rw [if_pos ht] at h
        exact Except.noConfusion h
      · rw [if_neg ht] at h
        have ihh := ih (i + 1) ((i + 1) * 100 / total :: progAcc)
          (dictSet caches r0.nodeName cd) h nm
        by_cases hnm : r0.nodeName = nm
        · subst hnm
          have hfc : ((r0, p0) :: tl).filter
              (fun rp => decide (rp.1.nodeName = r0.nodeName)) =
              (r0, p0) :: tl.filter
                (fun rp => decide (rp.1.nodeName = r0.nodeName)) :=
            List.filter_cons_of_pos (by simp)
          constructor
          · intro habs
            rw [hfc] at habs
            simp at habs
          · intro r pth hlast
            rw [hfc] at hlast
            cases hrest : tl.filter
                (fun rp => decide (rp.1.nodeName = r0.nodeName)) with
            | nil =>
              rw [hrest] at hlast
              simp only [List.getLast?_singleton, Option.some.injEq,
                Prod.mk.injEq] at hlast
              obtain ⟨h1, h2⟩ := hlast
              subst h1
              subst h2
              exact ⟨cd, hb,
                (ihh.1 hrest).trans (lookupKey_dictSet_self caches r0.nodeName cd)⟩
            | cons f2 tl2 =>
              rw [hrest] at hlast
              rw [List.getLast?_cons_cons] at hlast
              refine ihh.2 r pth ?_
              rw [hrest]
              exact hlast
        · have hfc : ((r0, p0) :: tl).filter
              (fun rp => decide (rp.1.nodeName = nm)) =
              tl.filter (fun rp => decide (rp.1.nodeName = nm)) :=
            List.filter_cons_of_neg (by simp [hnm])
          constructor
          · intro hnil
            rw [hfc] at hnil
            rw [ihh.1 hnil]
            exact lookupKey_dictSet_ne caches r0.nodeName nm cd
              (fun h2 => hnm h2.symm)
          · intro r pth hlast
            rw [hfc] at hlast
            exact ihh.2 r pth hlast

theorem runLoop_nodup_keys {pat : PyRegex} {fs : List FSEntry} {total : Nat} :
    ∀ (l : List (RefParm × List String)) (i : Nat) (progAcc : List Nat)
    (caches : List (String × CacheData)) {pl : List Nat}
    {cs : List (String × CacheData)},
    runLoop pat fs total i progAcc caches l = .ok (pl, cs) →
    (caches.map Prod.fst).Nodup → (cs.map Prod.fst).Nodup := by
  intro l
  induction l with
  | nil =>
    intro i progAcc caches pl cs h hnd
    simp only [runLoop, Except.ok.injEq, Prod.mk.injEq] at h
    obtain ⟨hpl, hcs⟩ := h
    subst hcs
    exact hnd
  | cons hd tl ih =>
    intro i progAcc caches pl cs h hnd
    obtain ⟨r0, p0⟩ := hd
    cases hb : build_cache_data pat fs r0 p0 with
    | error e =>
      simp only [runLoop, hb] at h
      exact Except.noConfusion h
    | ok cd =>
      simp only [runLoop, hb] at h
      by_cases ht : total = 0
      · rw [if_pos ht] at h
        exact Except.noConfusion h
      · rw [if_neg ht] at h
        exact ih _ _ _ h (nodup_keys_dictSet r0.nodeName cd hnd)

theorem runLoop_length {pat : PyRegex} {fs : List FSEntry} {total : Nat} :
    ∀ (l : List (RefParm × List String)) (i : Nat) (progAcc : List Nat)
    (caches : List (String × CacheData)) {pl : List Nat}
    {cs : List (String × CacheData)},
    runLoop pat fs total i progAcc caches l = .ok (pl, cs) →
    (l.map (fun rp => rp.1.nodeName)).Nodup →
    (∀ rp ∈ l, rp.1.nodeName ∉ caches.map Prod.fst) →
    cs.length = caches.length + l.length := by
  intro l
  induction l with
  | nil =>
    intro i progAcc caches pl cs h _ _
    simp only [runLoop, Except.ok.injEq, Prod.mk.injEq] at h
    obtain ⟨hpl, hcs⟩ := h
    subst hcs
    rfl
  | cons hd tl ih =>
    intro i progAcc caches pl cs h hnd hdisj
    obtain ⟨r0, p0⟩ := hd
    cases hb : build_cache_data pat fs r0 p0 with
    | error e =>
      simp only [runLoop, hb] at h
      exact Except.noConfusion h
    | ok cd =>
      simp only [runLoop, hb] at h
      by_cases ht : total = 0
      · rw [if_pos ht] at h
        exact Except.noConfusion h
      · rw [if_neg ht] at h
        rw [List.map_cons, List.nodup_cons] at hnd
        have hnotmem : r0.nodeName ∉ caches.map Prod.fst :=
          hdisj (r0, p0) (List.mem_cons_self _ _)
        have hdisj2 : ∀ rp ∈ tl,
            rp.1.nodeName ∉ (dictSet caches r0.nodeName cd).map Prod.fst := by
          intro rp hrp hmem
          rcases (mem_keys_dictSet caches r0.nodeName cd rp.1.nodeName).mp hmem
            with h1 | h1
          · exact hdisj rp (List.mem_cons_of_mem _ hrp) h1
          · exact hnd.1 (h1 ▸ List.mem_map.mpr ⟨rp, hrp, rfl⟩)
        have hlen := ih _ _ _ h hnd.2 hdisj2
        rw [hlen, length_dictSet_of_not_mem cd hnotmem]
        simp [Nat.add_assoc, Nat.add_comm 1]

theorem filter_name_singleton :
    ∀ {l : List (RefParm × List String)}
    (hn : (l.map (fun rp => rp.1.nodeName)).Nodup)
    {rp : RefParm × List String}, rp ∈ l →
    l.filter (fun x => decide (x.1.nodeName = rp.1.nodeName)) = [rp] := by
  intro l
  induction l with
  | nil => intro _ rp hm; simp at hm
  | cons hd tl ih =>
    intro hn rp hm
    rw [List.map_cons, List.nodup_cons] at hn
    rcases List.mem_cons.mp hm with rfl | hmem
    · rw [List.filter_cons_of_pos (by simp)]
      have hnil : tl.filter (fun x => decide (x.1.nodeName = rp.1.nodeName)) = [] := by
        apply List.filter_eq_nil_iff.mpr
        intro x hx
        simp only [decide_eq_true_eq]
        intro heq
        exact hn.1 (heq ▸ List.mem_map.mpr ⟨x, hx, rfl⟩)
      rw [hnil]
    · have hne : hd.1.nodeName ≠ rp.1.nodeName := by
        intro heq
        exact hn.1 (heq ▸ List.mem_map.mpr ⟨rp, hmem, rfl⟩)
      rw [List.filter_cons_of_neg (by simp [hne])]
      exact ih hn.2 hmem

theorem pathExists_of_isFile {es : List FSEntry} {p : List String}
    (h : isFile es p = true) : pathExists es p = true := by
  unfold isFile at h
  unfold pathExists
  cases hr : resolvePath es p with
  | none => rw [hr] at h; simp at h
  | some e => simp

theorem dropLast_dropLast_eq_take {α : Type} (l : List α) :
    l.dropLast.dropLast = l.take (l.length - 2) := by
  rw [List.dropLast_eq_take, List.dropLast_eq_take, List.length_take,
    List.take_take]
  congr 1
  omega

theorem build_cache_data_valid (pat : PyRegex) (fs : List FSEntry)
    (r : RefParm) (path : List String) (hfile : isFile fs path = true)
    (hpar : pymatchB pat (parentName path) = true) (hlen : 2 ≤ path.length) :
    ∃ children latest,
      resolveDir fs path.dropLast.dropLast = some children ∧
      pymax (pysorted strLe (((scanList path.dropLast.dropLast children).map
        (fun q => extract_version pat q)).dedup)) = some latest ∧
      path ∈ scanList path.dropLast.dropLast children ∧
      build_cache_data pat fs r path = .ok
        { cache_node := r.nodeName
          cache_parm := r
          cache_name := pathName path
          cache_extension := suffixesJoined (pathName path)
          used_cache_path := [(path, some (extract_version pat path))]
          unused_cache_paths := pysorted (fun a b => optLeB b.2 a.2)
            ((((scanList path.dropLast.dropLast children).dedup).filter
              (fun q => decide (q ≠ path))).map
              (fun q => (q, some (extract_version pat q))))
          latest_version := some latest
          current_version := some (extract_version pat path)
          all_versions := pysorted strLe (((scanList path.dropLast.dropLast
            children).map (fun q => extract_version pat q)).dedup)
          is_current_latest := decide (latest = extract_version pat path)
          valid_cache_file := true
          valid_cache_path := true } := by
  have hsplit : path.dropLast.dropLast ++ path.drop (path.length - 2) = path := by
    rw [dropLast_dropLast_eq_take]
    exact List.take_append_drop _ _
  have hblen : (path.drop (path.length - 2)).length = 2 := by
    rw [List.length_drop]
    omega
  have hbne : path.drop (path.length - 2) ≠ [] := by
    intro habs
    rw [habs] at hblen
    simp at hblen
  have hfile2 : isFile fs (path.dropLast.dropLast ++
      path.drop (path.length - 2)) = true := by
    rw [hsplit]
    exact hfile
  obtain ⟨children, hcd, hfb⟩ :=
    resolveDir_of_isFile path.dropLast.dropLast (path.drop (path.length - 2))
      fs hbne hfile2
  have hmem : path ∈ scanList path.dropLast.dropLast children := by
    have hm := isFile_mem_scan (path.drop (path.length - 2)) children
      path.dropLast.dropLast hfb
    rw [hsplit] at hm
    exact hm
  have hvs : pysorted strLe (((scanList path.dropLast.dropLast children).map
      (fun q => extract_version pat q)).dedup) ≠ [] := by
    intro habs
    have hlen2 := (pysorted_perm strLe
      (((scanList path.dropLast.dropLast children).map
        (fun q => extract_version pat q)).dedup)).length_eq
    rw [habs] at hlen2
    have hd0 : (((scanList path.dropLast.dropLast children).map
        (fun q => extract_version pat q)).dedup) = [] :=
      List.length_eq_zero.mp hlen2.symm
    have hm0 : ((scanList path.dropLast.dropLast children).map
        (fun q => extract_version pat q)) = [] :=
      (List.dedup_eq_nil _).mp hd0
    have hs0 : scanList path.dropLast.dropLast children = [] :=
      List.map_eq_nil_iff.mp hm0
    rw [hs0] at hmem
    exact List.not_mem_nil path hmem
  obtain ⟨latest, hmax⟩ := pymax_isSome hvs
  refine ⟨children, latest, hcd, hmax, hmem, ?_⟩
  unfold build_cache_data
  simp only [pathExists_of_isFile hfile, hpar, Bool.true_eq_false,
    if_false, hcd, hmax]
  rw [if_neg (by omega : ¬ path.length < 2)]
  simp only [initCacheData, pathExists_of_isFile hfile]

/-- Test fixture: a cache tree `cache/geo/{v001,v002}/c.bgeo`. -/
def fsA : List FSEntry :=
  [.dir "cache" [.dir "geo"
    [.dir "v001" [.file "c.bgeo"], .dir "v002" [.file "c.bgeo"]]]]

/-- Test fixture: the parm of node `geo` referencing the `v002` cache. -/
def rpA : RefParm :=
  ⟨0, "geo", ["cache", "geo", "v002", "c.bgeo"]⟩

/-- C6: for every path, `_extract_version` returns the first substring of
the POSIX form of the whole path that matches the configured version
pattern (the match the engine finds at the leftmost matching position),
and returns the empty string, rather than failing, when no part of the
path matches. -/
theorem c6_extract_version_first_match (p : PyRegex) (path : List String) :
    (extract_version p path = "" ∧
      ∀ i n, n ≤ ((pathStr path).toList.drop i).length →
        p.fullMatch (((pathStr path).toList.drop i).take n) = false) ∨
    (∃ i n, p.matchAt ((pathStr path).toList.drop i) = some n ∧
      extract_version p path =
        String.mk (((pathStr path).toList.drop i).take n) ∧
      p.fullMatch (((pathStr path).toList.drop i).take n) = true ∧
      ∀ j, j < i → ∀ n2, n2 ≤ ((pathStr path).toList.drop j).length →
        p.fullMatch (((pathStr path).toList.drop j).take n2) = false) := by
  cases hs : pysearch p (pathStr path).toList with
  | none =>
    left
    constructor
    · unfold extract_version
      rw [hs]
    · intro i n hn
      exact p.matchAt_none _ (pysearch_none_matchAt hs i) n hn
  | some m =>
    right
    rcases pysearch_some_spec hs with ⟨i, n, h1, h2, h3⟩
    refine ⟨i, n, h1, ?_, (p.matchAt_isSome _ n h1).2, ?_⟩
    · unfold extract_version
      rw [hs, h2]
    · intro j hj n2 hn2
      exact p.matchAt_none _ (h3 j hj) n2 hn2

/-- C7: `scan_directory` yields exactly the non-directory entries
reachable below the given directory through real directories (a symlink
to a directory is yielded like a file, not followed), and the recursion
terminates on every finite directory tree: a budget of the tree depth
plus one suffices. -/
theorem c7_scan_directory_exact_and_terminates (es : List FSEntry)
    (pre : List String) :
    (∀ p, p ∈ scanList pre es ↔ ∃ q, IsLeafPath es q ∧ p = pre ++ q) ∧
    scanFuel (fsDepthList es + 1) pre es = some (scanList pre es) :=
  ⟨fun p => mem_scanList_iff es pre p,
   scanFuel_complete (fsDepthList es + 1) es pre (Nat.lt_succ_self _)⟩

/-- C1: for every cache reference whose file exists and whose parent
directory name matches the version pattern, the reported
`latest_version` is the maximum, under plain string comparison, of the
set of version strings extracted from all file paths found under the
directory two levels above the used cache file. -/
theorem c1_latest_version_is_max (pat : PyRegex) (fs : List FSEntry)
    (r : RefParm) (path : List String) (hfile : isFile fs path = true)
    (hpar : pymatchB pat (parentName path) = true) (hlen : 2 ≤ path.length) :
    ∃ cd children,
      build_cache_data pat fs r path = .ok cd ∧
      resolveDir fs path.dropLast.dropLast = some children ∧
      ∃ m, cd.latest_version = some m ∧
        m ∈ (scanList path.dropLast.dropLast children).map
          (fun q => extract_version pat q) ∧
        ∀ v ∈ (scanList path.dropLast.dropLast children).map
          (fun q => extract_version pat q), v ≤ m := by
  obtain ⟨children, latest, hcd, hmax, hmem, hbuild⟩ :=
    build_cache_data_valid pat fs r path hfile hpar hlen
  refine ⟨_, children, hbuild, hcd, latest, rfl, ?_, ?_⟩
  · have hm := pymax_mem hmax
    rw [mem_pysorted] at hm
    exact List.mem_dedup.mp hm
  · intro v hv
    exact le_pymax hmax v (by rw [mem_pysorted]; exact List.mem_dedup.mpr hv)

/-- Witness for C1 at a concrete tree: the reference `cache/geo/v002/
c.bgeo` with a literal version pattern `v002`. -/
theorem c1_witness :
    isFile fsA ["cache", "geo", "v002", "c.bgeo"] = true ∧
    pymatchB (litPat "v002")
      (parentName ["cache", "geo", "v002", "c.bgeo"]) = true ∧
    2 ≤ (["cache", "geo", "v002", "c.bgeo"] : List String).length ∧
    ∃ cd children,
      build_cache_data (litPat "v002") fsA rpA
        ["cache", "geo", "v002", "c.bgeo"] = .ok cd ∧
      resolveDir fsA
        (["cache", "geo", "v002", "c.bgeo"] : List String).dropLast.dropLast =
        some children ∧
      ∃ m, cd.latest_version = some m ∧
        m ∈ (scanList
          (["cache", "geo", "v002", "c.bgeo"] : List String).dropLast.dropLast
          children).map (fun q => extract_version (litPat "v002") q) ∧
        ∀ v ∈ (scanList
          (["cache", "geo", "v002", "c.bgeo"] : List String).dropLast.dropLast
          children).map (fun q => extract_version (litPat "v002") q), v ≤ m :=
  ⟨by decide, by decide, by decide,
    c1_latest_version_is_max (litPat "v002") fsA rpA
      ["cache", "geo", "v002", "c.bgeo"] (by decide) (by decide) (by decide)⟩

/-- C5: for every valid cache reference, the keys of
`unused_cache_paths` are exactly the file paths found under the
directory two levels above the used cache file, minus the used cache
path itself. -/
theorem c5_unused_is_set_difference (pat : PyRegex) (fs : List FSEntry)
    (r : RefParm) (path : List String) (hfile : isFile fs path = true)
    (hpar : pymatchB pat (parentName path) = true) (hlen : 2 ≤ path.length) :
    ∃ cd children,
      build_cache_data pat fs r path = .ok cd ∧
      resolveDir fs path.dropLast.dropLast = some children ∧
      ∀ q, q ∈ cd.unused_cache_paths.map Prod.fst ↔
        (q ∈ scanList path.dropLast.dropLast children ∧ q ≠ path) := by
  obtain ⟨children, latest, hcd, hmax, hmem, hbuild⟩ :=
    build_cache_data_valid pat fs r path hfile hpar hlen
  refine ⟨_, children, hbuild, hcd, ?_⟩
  intro q
  show q ∈ (pysorted (fun a b => optLeB b.2 a.2)
    ((((scanList path.dropLast.dropLast children).dedup).filter
      (fun q2 => decide (q2 ≠ path))).map
      (fun q2 => (q2, some (extract_version pat q2))))).map Prod.fst ↔ _
  rw [mem_keys_pysorted]
  rw [List.map_map]
  constructor
  · intro hq
    rcases List.mem_map.mp hq with ⟨q2, hq2, hf⟩
    have hq2q : q2 = q := hf
    subst hq2q
    rcases List.mem_filter.mp hq2 with ⟨hd, hne⟩
    exact ⟨List.mem_dedup.mp hd, of_decide_eq_true hne⟩
  · rintro ⟨hq, hne⟩
    refine List.mem_map.mpr ⟨q, ?_, rfl⟩
    exact List.mem_filter.mpr ⟨List.mem_dedup.mpr hq, by simp [hne]⟩

/-- Witness for C5 at the same concrete tree as C1. -/
theorem c5_witness :
    isFile fsA ["cache", "geo", "v002", "c.bgeo"] = true ∧
    ∃ cd children,
      build_cache_data (litPat "v002") fsA rpA
        ["cache", "geo", "v002", "c.bgeo"] = .ok cd ∧
      resolveDir fsA
        (["cache", "geo", "v002", "c.bgeo"] : List String).dropLast.dropLast =
        some children ∧
      ∀ q, q ∈ cd.unused_cache_paths.map Prod.fst ↔
        (q ∈ scanList
          (["cache", "geo", "v002", "c.bgeo"] : List String).dropLast.dropLast
          children ∧ q ≠ ["cache", "geo", "v002", "c.bgeo"]) :=
  ⟨by decide,
    c5_unused_is_set_difference (litPat "v002") fsA rpA
      ["cache", "geo", "v002", "c.bgeo"] (by decide) (by decide) (by decide)⟩

theorem pathsToDelete_spec (c : String) :
    ∀ (l : List (List String × Option String)),
    (∀ pv ∈ l, pv.2.isSome = true) →
    ∃ res, pathsToDelete (some c) l = .ok res ∧
      ∀ p, p ∈ res ↔ ∃ s, (p, some s) ∈ l ∧ s < c := by
  intro l
  induction l with
  | nil =>
    intro _
    exact ⟨[], rfl, by simp⟩
  | cons hd t ih =>
    intro hvals
    obtain ⟨p0, v0⟩ := hd
    have hv0 : v0.isSome = true := hvals (p0, v0) (List.mem_cons_self _ _)
    obtain ⟨s0, hs0⟩ := Option.isSome_iff_exists.mp hv0
    subst hs0
    obtain ⟨res, hres, hspec⟩ := ih (fun pv hpv => hvals pv (List.mem_cons_of_mem _ hpv))
    refine ⟨if strLtB s0 c then p0 :: res else res, ?_, ?_⟩
    · show (match optLtE (some s0) (some c) with
        | .error e => .error e
        | .ok b =>
          match pathsToDelete (some c) t with
          | .error e => .error e
          | .ok rest => .ok (if b then p0 :: rest else rest)) =
        Except.ok (if strLtB s0 c then p0 :: res else res)
      rw [hres]
      rfl
    · intro p
      by_cases hlt : strLtB s0 c = true
      · rw [if_pos hlt]
        have hs0c : s0 < c := (strLtB_iff s0 c).mp hlt
        constructor
        · intro hp
          rcases List.mem_cons.mp hp with rfl | hp2
          · exact ⟨s0, List.mem_cons_self _ _, hs0c⟩
          · rcases (hspec p).mp hp2 with ⟨s, hmem, hsc⟩
            exact ⟨s, List.mem_cons_of_mem _ hmem, hsc⟩
        · rintro ⟨s, hmem, hsc⟩
          rcases List.mem_cons.mp hmem with heq | hmem2
          · have hp : p = p0 := congrArg Prod.fst heq
            exact List.mem_cons.mpr (Or.inl hp)
          · exact List.mem_cons.mpr (Or.inr ((hspec p).mpr ⟨s, hmem2, hsc⟩))
      · rw [if_neg hlt]
        have hns : ¬ s0 < c := fun hc => hlt ((strLtB_iff s0 c).mpr hc)
        constructor
        · intro hp
          rcases (hspec p).mp hp with ⟨s, hmem, hsc⟩
          exact ⟨s, List.mem_cons_of_mem _ hmem, hsc⟩
        · rintro ⟨s, hmem, hsc⟩
          rcases List.mem_cons.mp hmem with heq | hmem2
          · have hs : s = s0 := Option.some.inj (congrArg Prod.snd heq)
            exact absurd (hs ▸ hsc) hns
          · exact (hspec p).mpr ⟨s, hmem2, hsc⟩

/-- C2: the Delete Unused Caches operation, once confirmed, deletes
exactly those unused cache files whose version string is strictly below
the current version under string comparison; an unused cache at or above
the current version is never deleted, and when no unused version is
below the current one nothing is deleted at all (regardless of the
confirmation dialog). -/
theorem c2_delete_exactly_below_current (d : CacheData) (c : String)
    (hcur : d.current_version = some c)
    (hvals : ∀ pv ∈ d.unused_cache_paths, pv.2.isSome = true) :
    (∃ del d2, delete_unused_caches true d = .ok (del, d2) ∧
      ∀ p, p ∈ del ↔ ∃ s, (p, some s) ∈ d.unused_cache_paths ∧ s < c) ∧
    ((∀ p s, (p, some s) ∈ d.unused_cache_paths → ¬ s < c) →
      ∀ b, delete_unused_caches b d = .ok ([], d)) := by
  obtain ⟨res, hres, hspec⟩ := pathsToDelete_spec c d.unused_cache_paths hvals
  have hres2 : pathsToDelete d.current_version d.unused_cache_paths = .ok res := by
    rw [hcur]
    exact hres
  constructor
  · cases hr : res with
    | nil =>
      refine ⟨[], d, ?_, ?_⟩
      · unfold delete_unused_caches
        rw [hres2, hr]
      · intro p
        have := hspec p
        rw [hr] at this
        simpa using this
    | cons q qs =>
      refine ⟨q :: qs,
        { d with unused_cache_paths := (q :: qs).foldl (fun acc p => acc.eraseP (fun pv => decide (pv.1 = p))) d.unused_cache_paths },
        ?_, ?_⟩
      · unfold delete_unused_caches
        rw [hres2, hr]
        rfl
      · intro p
        have := hspec p
        rw [hr] at this
        exact this
  · intro hnone b
    have hrnil : res = [] := by
      apply List.eq_nil_iff_forall_not_mem.mpr
      intro p hp
      rcases (hspec p).mp hp with ⟨s, hmem, hsc⟩
      exact hnone p s hmem hsc
    unfold delete_unused_caches
    rw [hres2, hrnil]

/-- Test fixture: cache data for C2 and C3, currently on `v002` with
unused versions `v003` and `v001`. -/
def cdA : CacheData :=
  CacheData.mk "geo" ⟨0, "geo", ["a"]⟩ "c" ""
    [(["a", "v002", "c"], some "v002")]
    [(["a", "v003", "c"], some "v003"), (["a", "v001", "c"], some "v001")]
    (some "v003") (some "v002") ["v001", "v002", "v003"] false true true

/-- Witness for C2 at `cdA`: only the `v001` cache is below `v002`. -/
theorem c2_witness :
    cdA.current_version = some "v002" ∧
    (∀ pv ∈ cdA.unused_cache_paths, pv.2.isSome = true) ∧
    ((∃ del d2, delete_unused_caches true cdA = .ok (del, d2) ∧
      ∀ p, p ∈ del ↔ ∃ s, (p, some s) ∈ cdA.unused_cache_paths ∧ s < "v002") ∧
    ((∀ p s, (p, some s) ∈ cdA.unused_cache_paths → ¬ s < "v002") →
      ∀ b, delete_unused_caches b cdA = .ok ([], cdA))) :=
  ⟨by decide, by decide,
    c2_delete_exactly_below_current cdA "v002" (by decide) (by decide)⟩

theorem findFirstWithVersion_some {v : String}
    {l : List (List String × Option String)} {p : List String}
    (h : findFirstWithVersion v l = some p) : (p, some v) ∈ l := by
  unfold findFirstWithVersion at h
  cases hf : l.find? (fun pv => decide (pv.2 = some v)) with
  | none => rw [hf] at h; simp at h
  | some pv =>
    rw [hf] at h
    have hp1 : pv.1 = p := Option.some.inj h
    have hm := List.mem_of_find?_eq_some hf
    have hpred := List.find?_some hf
    simp only [decide_eq_true_eq] at hpred
    cases pv
    cases hp1
    cases hpred
    exact hm

theorem mem_dictSet_elim {K V : Type} [DecidableEq K]
    {l : List (K × V)} {k : K} {v : V} {pv : K × V}
    (h : pv ∈ dictSet l k v) : pv = (k, v) ∨ pv ∈ l := by
  unfold dictSet at h
  by_cases ha : l.any (fun kv => decide (kv.1 = k)) = true
  · rw [if_pos ha] at h
    rcases List.mem_map.mp h with ⟨kv, hkv, hf⟩
    by_cases hk : kv.1 = k
    · rw [if_pos hk] at hf
      exact Or.inl hf.symm
    · rw [if_neg hk] at hf
      exact Or.inr (hf ▸ hkv)
  · rw [if_neg ha] at h
    rcases List.mem_append.mp h with h1 | h1
    · exact Or.inr h1
    · exact Or.inl (by simpa using h1)

theorem sortByVersionDesc_ok : ∀ (l : List (List String × Option String)),
    (∀ pv ∈ l, pv.2.isSome = true) →
    sortByVersionDesc l = .ok (pysorted (fun a b => optLeB b.2 a.2) l)
  | [] => fun _ => rfl
  | [x] => fun _ => rfl
  | x :: y :: t => fun h => by
    show (if (x :: y :: t).all (fun pv => pv.2.isSome) = true then
        Except.ok (pysorted (fun a b => optLeB b.2 a.2) (x :: y :: t))
      else Except.error PyErr.typeError) =
      Except.ok (pysorted (fun a b => optLeB b.2 a.2) (x :: y :: t))
    rw [if_pos (List.all_eq_true.mpr h)]

/-- C3: when the stored versions are strings, as `_build_cache_data`
produces them (Python's re-sort raises `TypeError` on a `None` value
reaching a comparison), switching a node's active cache version to
`new_version` moves the previously used path into `unused_cache_paths`
under the old current version, removes the first unused path carrying
`new_version` and makes it the sole used path, sets `current_version`
to `new_version`, and leaves the union of used and unused cache paths
unchanged. -/
theorem c3_update_caches_spec (d : CacheData) (new_version : String)
    (oldp : List String) (oldv : Option String) (newp : List String)
    (hused : d.used_cache_path = [(oldp, oldv)])
    (hfind : findFirstWithVersion new_version d.unused_cache_paths = some newp)
    (hne : oldp ≠ newp)
    (hnodup : (d.unused_cache_paths.map Prod.fst).Nodup)
    (hvals : ∀ pv ∈ d.unused_cache_paths, pv.2.isSome = true)
    (hcurv : d.current_version.isSome = true) :
    ∃ d2, update_caches d new_version = .ok d2 ∧
      d2.used_cache_path = [(newp, some new_version)] ∧
      d2.current_version = some new_version ∧
      (oldp, d.current_version) ∈ d2.unused_cache_paths ∧
      newp ∉ d2.unused_cache_paths.map Prod.fst ∧
      (∀ q, (q ∈ d2.used_cache_path.map Prod.fst ∨
             q ∈ d2.unused_cache_paths.map Prod.fst) ↔
            (q ∈ d.used_cache_path.map Prod.fst ∨
             q ∈ d.unused_cache_paths.map Prod.fst)) := by
  have hnewmem : newp ∈ d.unused_cache_paths.map Prod.fst :=
    List.mem_map.mpr ⟨(newp, some new_version), findFirstWithVersion_some hfind, rfl⟩
  refine ⟨{ d with
      used_cache_path := [(newp, some new_version)]
      unused_cache_paths := pysorted (fun a b => optLeB b.2 a.2)
        (dictSet (d.unused_cache_paths.eraseP (fun pv => decide (pv.1 = newp)))
          oldp d.current_version)
      current_version := some new_version
      is_current_latest := decide (d.latest_version = some new_version) },
    ?_, rfl, rfl, ?_, ?_, ?_⟩
  · have hall : ∀ pv ∈ dictSet
        (d.unused_cache_paths.eraseP (fun pv => decide (pv.1 = newp)))
        oldp d.current_version, pv.2.isSome = true := by
      intro pv hpv
      rcases mem_dictSet_elim hpv with rfl | hmem
      · exact hcurv
      · exact hvals pv ((List.eraseP_sublist d.unused_cache_paths).subset hmem)
    unfold update_caches
    simp only [hused, hfind]
    rw [sortByVersionDesc_ok _ hall]
  · rw [mem_pysorted]
    exact mem_dictSet_self _ oldp d.current_version
  · intro hmem
    rw [mem_keys_pysorted] at hmem
    rcases (mem_keys_dictSet _ oldp d.current_version newp).mp hmem with h1 | h1
    · rw [keys_eraseP_key _ newp newp hnodup] at h1
      exact h1.2 rfl
    · exact hne h1.symm
  · intro q
    have hu2 : ([((newp : List String), some new_version)]).map Prod.fst = [newp] := rfl
    have hu : (d.used_cache_path.map Prod.fst) = [oldp] := by rw [hused]; rfl
    rw [hu2, hu]
    rw [mem_keys_pysorted]
    constructor
    · rintro (hq | hq)
      · have hqn : q = newp := by simpa using hq
        subst hqn
        exact Or.inr hnewmem
      · rcases (mem_keys_dictSet _ oldp d.current_version q).mp hq with h1 | h1
        · rw [keys_eraseP_key _ newp q hnodup] at h1
          exact Or.inr h1.1
        · exact Or.inl (by simp [h1])
    · rintro (hq | hq)
      · have hqo : q = oldp := by simpa using hq
        subst hqo
        exact Or.inr ((mem_keys_dictSet _ q d.current_version q).mpr (Or.inr rfl))
      · by_cases hqn : q = newp
        · exact Or.inl (by simp [hqn])
        · refine Or.inr ((mem_keys_dictSet _ oldp d.current_version q).mpr (Or.inl ?_))
          rw [keys_eraseP_key _ newp q hnodup]
          exact ⟨hq, hqn⟩

/-- Witness for C3 at `cdA`: switching from `v002` to `v001`. -/
theorem c3_witness :
    cdA.used_cache_path = [(["a", "v002", "c"], some "v002")] ∧
    findFirstWithVersion "v001" cdA.unused_cache_paths = some ["a", "v001", "c"] ∧
    (["a", "v002", "c"] : List String) ≠ ["a", "v001", "c"] ∧
    (cdA.unused_cache_paths.map Prod.fst).Nodup ∧
    (∀ pv ∈ cdA.unused_cache_paths, pv.2.isSome = true) ∧
    cdA.current_version.isSome = true ∧
    ∃ d2, update_caches cdA "v001" = .ok d2 ∧
      d2.used_cache_path = [(["a", "v001", "c"], some "v001")] ∧
      d2.current_version = some "v001" ∧
      (["a", "v002", "c"], cdA.current_version) ∈ d2.unused_cache_paths ∧
      (["a", "v001", "c"] : List String) ∉ d2.unused_cache_paths.map Prod.fst ∧
      (∀ q, (q ∈ d2.used_cache_path.map Prod.fst ∨
             q ∈ d2.unused_cache_paths.map Prod.fst) ↔
            (q ∈ cdA.used_cache_path.map Prod.fst ∨
             q ∈ cdA.unused_cache_paths.map Prod.fst)) :=
  ⟨by decide, by decide, by decide, by decide, by decide, by decide,
    c3_update_caches_spec cdA "v001" ["a", "v002", "c"] (some "v002")
      ["a", "v001", "c"] (by decide) (by decide) (by decide) (by decide)
      (by decide) (by decide)⟩

deriving instance DecidableEq for Except

theorem lookupKey_isSome_iff {K V : Type} [DecidableEq K]
    (l : List (K × V)) (k : K) :
    (lookupKey l k).isSome = true ↔ k ∈ l.map Prod.fst := by
  unfold lookupKey
  rw [show (l.find? (fun kv => decide (kv.1 = k))).map (fun kv => kv.2) =
    (fun kv : K × V => kv.2) <$> l.find? (fun kv => decide (kv.1 = k)) from rfl]
  rw [Option.isSome_map, List.find?_isSome]
  constructor
  · rintro ⟨kv, hkv, hp⟩
    exact List.mem_map.mpr ⟨kv, hkv, of_decide_eq_true hp⟩
  · intro h
    rcases List.mem_map.mp h with ⟨kv, hkv, hf⟩
    exact ⟨kv, hkv, by simp [hf]⟩

/-- C10: when the filtered list of file references is empty, `run` still
completes, emits `finished` with an empty dictionary and no progress
values, and the percentage division (which would divide by a zero total)
is never evaluated, because it sits inside the loop body. -/
theorem c10_empty_scan_completes (pat : PyRegex) (fs : List FSEntry)
    (root : List String) (refs : List (Option RefParm × String))
    (h : filter_file_references root refs = []) :
    run pat fs root refs = .ok ([], []) := by
  unfold run
  rw [h]
  rfl

/-- Witness for C10: a scene whose only file reference is not a
`hou.Parm`. -/
theorem c10_witness :
    filter_file_references ["cache"] [((none : Option RefParm), "op:/x")] = [] ∧
    run (litPat "v") [] ["cache"] [((none : Option RefParm), "op:/x")] =
      .ok ([], []) :=
  ⟨by decide,
    c10_empty_scan_completes (litPat "v") [] ["cache"]
      [((none : Option RefParm), "op:/x")] (by decide)⟩

/-- Test fixture: two distinct parms on distinct nodes that share the
node name `geo`, both evaluating inside the cache root. -/
def refsB : List (Option RefParm × String) :=
  [(some ⟨0, "geo", ["cache", "a"]⟩, "x"), (some ⟨1, "geo", ["cache", "b"]⟩, "y")]

/-- C4 counterexample: with two kept references owned by distinct nodes
that share a node name, the caches dictionary has a single entry, not
one entry per kept reference as the claim states. -/
theorem c4_counterexample :
    (filter_file_references ["cache"] refsB).length = 2 ∧
    (run (litPat "v") [] ["cache"] refsB).map
      (fun pc => pc.2.length) = .ok 1 := by
  constructor
  · decide
  · decide

/-- C4 (amended): the scan keeps exactly those file-reference parameters
whose evaluated path lies inside the configured cache root path, and the
caches dictionary has one entry per distinct node name among the kept
references, keyed by the owning node's name — in particular one entry
per kept reference when the kept node names are pairwise distinct. -/
theorem c4_kept_references_and_entries (pat : PyRegex) (fs : List FSEntry)
    (root : List String) (refs : List (Option RefParm × String))
    {pl : List Nat} {cs : List (String × CacheData)}
    (hrun : run pat fs root refs = .ok (pl, cs)) :
    (∀ r pth, (r, pth) ∈ filter_file_references root refs ↔
      ((∃ s, (some r, s) ∈ refs) ∧ root.isPrefixOf r.evalPath = true ∧
        pth = r.evalPath)) ∧
    (∀ nm, nm ∈ cs.map Prod.fst ↔
      ∃ rp ∈ filter_file_references root refs, rp.1.nodeName = nm) ∧
    (((filter_file_references root refs).map
        (fun rp => rp.1.nodeName)).Nodup →
      cs.length = (filter_file_references root refs).length ∧
      ∀ rp ∈ filter_file_references root refs,
        ∃ cd, build_cache_data pat fs rp.1 rp.2 = .ok cd ∧
          (rp.1.nodeName, cd) ∈ cs) := by
  simp only [run] at hrun
  refine ⟨?_, ?_, ?_⟩
  · intro r pth
    unfold filter_file_references
    rw [mem_pysorted, List.mem_dedup, List.mem_filterMap]
    constructor
    · rintro ⟨e, he, hf⟩
      obtain ⟨o, s⟩ := e
      cases o with
      | none => simp at hf
      | some r2 =>
        simp only at hf
        by_cases hpre : root.isPrefixOf r2.evalPath = true
        · rw [if_pos hpre] at hf
          have hr : r2 = r := congrArg Prod.fst (Option.some.inj hf)
          have hp : r2.evalPath = pth := congrArg Prod.snd (Option.some.inj hf)
          subst hr
          exact ⟨⟨s, he⟩, hpre, hp.symm⟩
        · rw [if_neg hpre] at hf
          exact absurd hf (by simp)
    · rintro ⟨⟨s, hmem⟩, hpre, hpth⟩
      refine ⟨(some r, s), hmem, ?_⟩
      simp only
      rw [if_pos hpre, hpth]
  · intro nm
    have hlk := runLoop_lookup (filter_file_references root refs) 0 [] [] hrun nm
    constructor
    · intro hmem
      by_cases hnil : (filter_file_references root refs).filter
          (fun rp => decide (rp.1.nodeName = nm)) = []
      · have h0 := hlk.1 hnil
        have h1 := (lookupKey_isSome_iff cs nm).mpr hmem
        rw [h0] at h1
        simp [lookupKey] at h1
      · obtain ⟨x, hx⟩ := List.exists_mem_of_ne_nil _ hnil
        rcases List.mem_filter.mp hx with ⟨hxl, hxp⟩
        exact ⟨x, hxl, of_decide_eq_true hxp⟩
    · rintro ⟨rp, hrp, hname⟩
      have hne : (filter_file_references root refs).filter
          (fun rp2 => decide (rp2.1.nodeName = nm)) ≠ [] := by
        intro habs
        have : rp ∈ (filter_file_references root refs).filter
            (fun rp2 => decide (rp2.1.nodeName = nm)) :=
          List.mem_filter.mpr ⟨hrp, by simp [hname]⟩
        rw [habs] at this
        simp at this
      obtain ⟨last, hlast⟩ := Option.isSome_iff_exists.mp
        (List.getLast?_isSome.mpr hne)
      obtain ⟨r2, p2⟩ := last
      obtain ⟨cd, hb, hl⟩ := hlk.2 r2 p2 hlast
      rw [← lookupKey_isSome_iff, hl]
      rfl
  · intro hnd
    constructor
    · have hlen := runLoop_length (filter_file_references root refs) 0 [] []
        hrun hnd (by simp)
      simpa using hlen
    · intro rp hrp
      have hsing := filter_name_singleton hnd hrp
      have hlast : ((filter_file_references root refs).filter
          (fun x => decide (x.1.nodeName = rp.1.nodeName))).getLast? =
          some (rp.1, rp.2) := by
        rw [hsing]
        rfl
      obtain ⟨cd, hb, hl⟩ :=
        (runLoop_lookup (filter_file_references root refs) 0 [] [] hrun
          rp.1.nodeName).2 rp.1 rp.2 hlast
      exact ⟨cd, hb, lookupKey_mem hl⟩

/-- Witness for C4's amended claim: two kept references with distinct
node names. -/
def refsC : List (Option RefParm × String) :=
  [(some ⟨0, "geoA", ["cache", "a"]⟩, "x"),
   (some ⟨1, "geoB", ["cache", "b"]⟩, "y"),
   ((none : Option RefParm), "op:/x"),
   (some ⟨2, "other", ["elsewhere", "c"]⟩, "z")]

theorem c4_witness :
    run (litPat "v") [] ["cache"] refsC =
      .ok ([50, 100],
        [("geoA", initCacheData ⟨0, "geoA", ["cache", "a"]⟩ [] ["cache", "a"]),
         ("geoB", initCacheData ⟨1, "geoB", ["cache", "b"]⟩ [] ["cache", "b"])]) ∧
    ((∀ r pth, (r, pth) ∈ filter_file_references ["cache"] refsC ↔
      ((∃ s, (some r, s) ∈ refsC) ∧
        (["cache"] : List String).isPrefixOf r.evalPath = true ∧
        pth = r.evalPath)) ∧
    (∀ nm, nm ∈ ([("geoA", initCacheData ⟨0, "geoA", ["cache", "a"]⟩ []
        ["cache", "a"]),
      ("geoB", initCacheData ⟨1, "geoB", ["cache", "b"]⟩ []
        ["cache", "b"])].map Prod.fst) ↔
      ∃ rp ∈ filter_file_references ["cache"] refsC, rp.1.nodeName = nm) ∧
    (((filter_file_references ["cache"] refsC).map
        (fun rp => rp.1.nodeName)).Nodup →
      ([("geoA", initCacheData ⟨0, "geoA", ["cache", "a"]⟩ [] ["cache", "a"]),
        ("geoB", initCacheData ⟨1, "geoB", ["cache", "b"]⟩ []
          ["cache", "b"])].length) =
        (filter_file_references ["cache"] refsC).length ∧
      ∀ rp ∈ filter_file_references ["cache"] refsC,
        ∃ cd, build_cache_data (litPat "v") [] rp.1 rp.2 = .ok cd ∧
          (rp.1.nodeName, cd) ∈
            [("geoA", initCacheData ⟨0, "geoA", ["cache", "a"]⟩ []
              ["cache", "a"]),
             ("geoB", initCacheData ⟨1, "geoB", ["cache", "b"]⟩ []
              ["cache", "b"])])) :=
  have hrun : run (litPat "v") [] ["cache"] refsC =
      .ok ([50, 100],
        [("geoA", initCacheData ⟨0, "geoA", ["cache", "a"]⟩ [] ["cache", "a"]),
         ("geoB", initCacheData ⟨1, "geoB", ["cache", "b"]⟩ [] ["cache", "b"])]) := by
    decide
  ⟨hrun, c4_kept_references_and_entries (litPat "v") [] ["cache"] refsC hrun⟩

/-- C8: when exactly two filtered references share the node name `nm`
(owned by distinct parms) and the first one's path sorts before the
second as a string, the caches dictionary contains a single entry for
that name, built from the reference whose path sorts last. -/
theorem c8_same_name_last_path_wins (pat : PyRegex) (fs : List FSEntry)
    (root : List String) (refs : List (Option RefParm × String))
    (nm : String) (r1 r2 : RefParm) (p1 p2 : List String)
    {pl : List Nat} {cs : List (String × CacheData)}
    (hrun : run pat fs root refs = .ok (pl, cs))
    (hfilter : (filter_file_references root refs).filter
      (fun rp => decide (rp.1.nodeName = nm)) = [(r1, p1), (r2, p2)])
    (hdistinct : r1 ≠ r2)
    (hlt : strLtB (pathStr p1) (pathStr p2) = true) :
    ∃ cd2, build_cache_data pat fs r2 p2 = .ok cd2 ∧
      cs.filter (fun e => decide (e.1 = nm)) = [(nm, cd2)] := by
  simp only [run] at hrun
  have hlk := runLoop_lookup (filter_file_references root refs) 0 [] [] hrun nm
  have hlast : ((filter_file_references root refs).filter
      (fun rp => decide (rp.1.nodeName = nm))).getLast? = some (r2, p2) := by
    rw [hfilter]
    rfl
  obtain ⟨cd2, hb, hl⟩ := hlk.2 r2 p2 hlast
  have hnodup := runLoop_nodup_keys (filter_file_references root refs)
    0 [] [] hrun (by simp)
  exact ⟨cd2, hb, filter_key_eq_of_lookup hnodup hl⟩

/-- Witness for C8 at `refsB`: both parms are named `geo`; the entry
built from `cache/b` (which sorts after `cache/a`) is the only one kept. -/
theorem c8_witness :
    run (litPat "v") [] ["cache"] refsB =
      .ok ([50, 100],
        [("geo", initCacheData ⟨1, "geo", ["cache", "b"]⟩ [] ["cache", "b"])]) ∧
    (filter_file_references ["cache"] refsB).filter
      (fun rp => decide (rp.1.nodeName = "geo")) =
      [(⟨0, "geo", ["cache", "a"]⟩, ["cache", "a"]),
       (⟨1, "geo", ["cache", "b"]⟩, ["cache", "b"])] ∧
    (⟨0, "geo", ["cache", "a"]⟩ : RefParm) ≠ ⟨1, "geo", ["cache", "b"]⟩ ∧
    strLtB (pathStr ["cache", "a"]) (pathStr ["cache", "b"]) = true ∧
    ∃ cd2, build_cache_data (litPat "v") [] ⟨1, "geo", ["cache", "b"]⟩
        ["cache", "b"] = .ok cd2 ∧
      ([("geo", initCacheData ⟨1, "geo", ["cache", "b"]⟩ []
        ["cache", "b"])].filter (fun e => decide (e.1 = "geo"))) = [("geo", cd2)] :=
  have hrun : run (litPat "v") [] ["cache"] refsB =
      .ok ([50, 100],
        [("geo", initCacheData ⟨1, "geo", ["cache", "b"]⟩ [] ["cache", "b"])]) := by
    decide
  ⟨hrun, by decide, by decide, by decide,
    c8_same_name_last_path_wins (litPat "v") [] ["cache"] refsB "geo"
      ⟨0, "geo", ["cache", "a"]⟩ ⟨1, "geo", ["cache", "b"]⟩
      ["cache", "a"] ["cache", "b"] hrun (by decide) (by decide) (by decide)⟩

/-- C9: `load_config` falls back to the bundled default config path when
the given path does not exist, parses the chosen file and returns,
without raising, a dictionary with exactly the keys `version_pattern`,
`houdini_variable` and `cache_root_path`, the last with environment
variables expanded. -/
theorem c9_load_config_fallback_and_keys
    (fsExists : List String → Bool) (readConf : List String → Option INIData)
    (expandvars : String → String) (userPath defaultPath : List String)
    (v1 v2 v3 : String)
    (h1 : iniGet ((readConf (if fsExists userPath then userPath
      else defaultPath)).getD []) "Settings" "version_pattern" = some v1)
    (h2 : iniGet ((readConf (if fsExists userPath then userPath
      else defaultPath)).getD []) "Settings" "houdini_variable" = some v2)
    (h3 : iniGet ((readConf (if fsExists userPath then userPath
      else defaultPath)).getD []) "Settings" "cache_root_path" = some v3) :
    load_config fsExists readConf expandvars userPath defaultPath =
      .ok [("version_pattern", v1), ("houdini_variable", v2),
           ("cache_root_path", expandvars v3)] ∧
    ∀ l, load_config fsExists readConf expandvars userPath defaultPath =
        .ok l →
      l.map Prod.fst = ["version_pattern", "houdini_variable",
        "cache_root_path"] := by
  have hmain : load_config fsExists readConf expandvars userPath defaultPath =
      .ok [("version_pattern", v1), ("houdini_variable", v2),
           ("cache_root_path", expandvars v3)] := by
    simp only [load_config, h1, h2, h3]
  refine ⟨hmain, ?_⟩
  intro l hl
  rw [hmain] at hl
  have := Except.ok.inj hl
  rw [← this]
  rfl

/-- Witness for C9: the user path does not exist, the default file
defines the three settings, and the returned dictionary carries the
expanded root. -/
theorem c9_witness :
    iniGet ((((fun p => if p = ["defaults"] then
        some [("Settings", [("version_pattern", "vP"),
          ("houdini_variable", "HIP"), ("cache_root_path", "$R/c")])]
      else none) : List String → Option INIData)
        (if (fun _ => false) ["user"] = true then ["user"]
          else ["defaults"])).getD [])
      "Settings" "version_pattern" = some "vP" ∧
    load_config (fun _ => false)
      (fun p => if p = ["defaults"] then
        some [("Settings", [("version_pattern", "vP"),
          ("houdini_variable", "HIP"), ("cache_root_path", "$R/c")])]
      else none)
      (fun s => String.append s "!") ["user"] ["defaults"] =
      .ok [("version_pattern", "vP"), ("houdini_variable", "HIP"),
           ("cache_root_path", String.append "$R/c" "!")] ∧
    (∀ l, load_config (fun _ => false)
      (fun p => if p = ["defaults"] then
        some [("Settings", [("version_pattern", "vP"),
          ("houdini_variable", "HIP"), ("cache_root_path", "$R/c")])]
      else none)
      (fun s => String.append s "!") ["user"] ["defaults"] = .ok l →
      l.map Prod.fst = ["version_pattern", "houdini_variable",
        "cache_root_path"]) :=
  have hc := c9_load_config_fallback_and_keys (fun _ => false)
    (fun p => if p = ["defaults"] then
      some [("Settings", [("version_pattern", "vP"),
        ("houdini_variable", "HIP"), ("cache_root_path", "$R/c")])]
    else none)
    (fun s => String.append s "!") ["user"] ["defaults"] "vP" "HIP" "$R/c"
    (by decide) (by decide) (by decide)
  ⟨by decide, hc.1, hc.2⟩
